import Mathlib

/-!
Shallow embedding of the sliding-puzzle solver from `src/puzzle.rs`
(`Move`, `Puzzle` and its methods), together with theorems settling the
specification claims.

Modelling conventions: the machine integers `usize` and `u32` become `Nat`
(no arithmetic here approaches the 64-bit range for the puzzle sizes the
program handles; `usize::MAX` is kept as an explicit sentinel constant),
`isize` becomes `Int` at the two places the source casts to it, `Vec`
becomes `List`, and in-place mutation of the board and of the shared
`path` buffer becomes explicit state passing: `apply_move` returns the
Rust `bool` paired with the updated puzzle, and `ida_star_search` returns
the Rust `Result` paired with the `path` buffer as it stands when the call
returns.  The recursion of `ida_star_search` terminates in the source
because `f = g + heuristic ≥ g` exceeds `bound` once `g` does; the
embedding makes this explicit with a fuel argument, and `solve` passes
`bound + 2` fuel, which the `f > bound` cutoff makes sufficient.
-/

/-- Rust enum `Move` (puzzle.rs lines 4-10). -/
inductive Move where
  | Up
  | Left
  | Down
  | Right
deriving DecidableEq

namespace Move

/-- Rust `Move::as_offset` (puzzle.rs lines 13-20). -/
def as_offset : Move → Int × Int
  | .Up => (1, 0)
  | .Left => (0, 1)
  | .Down => (-1, 0)
  | .Right => (0, -1)

/-- Rust `Move::opposite` (puzzle.rs lines 22-29). -/
def opposite : Move → Move
  | .Up => .Down
  | .Down => .Up
  | .Left => .Right
  | .Right => .Left

end Move

/-- Rust struct `Puzzle` (puzzle.rs lines 44-50).  `board` is the `Vec<Vec<u32>>` grid,
`x_pos`/`y_pos` the cached coordinates of the blank (row, column). -/
structure Puzzle where
  size : Nat
  board : List (List Nat)
  x_pos : Nat
  y_pos : Nat
deriving DecidableEq

/-- Reads `board[i][j]`.  Rust would panic out of range; every indexing the
source performs is inside the `size` × `size` grid, and the embedding
defaults out-of-range reads to 0. -/
def get_cell (board : List (List Nat)) (i j : Nat) : Nat :=
  (board.getD i []).getD j 0

/-- Writes `board[i][j] = v` (in-place assignment modelled functionally;
`List.set` is the identity out of range, matching that the source only
writes in range). -/
def set_cell (board : List (List Nat)) (i j : Nat) (v : Nat) : List (List Nat) :=
  board.set i ((board.getD i []).set j v)

namespace Puzzle

/-- Rust `Puzzle::new` (puzzle.rs lines 53-76): builds the goal arrangement row
by row with a running `value` counter that starts at 1, placing 0 in the
bottom-right cell. -/
def new (size : Nat) : Puzzle :=
  let built : List (List Nat) × Nat := (List.range size).foldl (fun acc i =>
    let row : List Nat × Nat := (List.range size).foldl (fun racc j =>
      if i = size - 1 ∧ j = size - 1 then (racc.1 ++ [0], racc.2)
      else (racc.1 ++ [racc.2], racc.2 + 1)) ([], acc.2)
    (acc.1 ++ [row.1], row.2)) ([], 1)
  { size := size, board := built.1, x_pos := size - 1, y_pos := size - 1 }

/-- Rust `Puzzle::apply_move` (puzzle.rs lines 78-97). -/
def apply_move (p : Puzzle) (movement : Move) : Bool × Puzzle :=
  let dx := movement.as_offset.1
  let dy := movement.as_offset.2
  let new_x : Int := (p.x_pos : Int) + dx
  let new_y : Int := (p.y_pos : Int) + dy
  if 0 ≤ new_x ∧ new_x < (p.size : Int) ∧ 0 ≤ new_y ∧ new_y < (p.size : Int) then
    let nx := new_x.toNat
    let ny := new_y.toNat
    let board1 := set_cell p.board p.x_pos p.y_pos (get_cell p.board nx ny)
    let board2 := set_cell board1 nx ny 0
    (true, { p with board := board2, x_pos := nx, y_pos := ny })
  else
    (false, p)

/-- Rust `Puzzle::try_move` (puzzle.rs lines 282-289): clone, apply, keep on
success. -/
def try_move (p : Puzzle) (dir : Move) : Option Puzzle :=
  let moved := apply_move p dir
  if moved.1 then some moved.2 else none

/-- Rust `Puzzle::is_solved` (puzzle.rs lines 167-186): scans the grid against a
running `expected` counter; the source's early `return false`s are folded
into `&&`, which yields the same boolean. -/
def is_solved (p : Puzzle) : Bool :=
  ((List.range p.size).foldl (fun st i =>
    (List.range p.size).foldl (fun st2 j =>
      if i = p.size - 1 ∧ j = p.size - 1 then
        (st2.1, st2.2 && (get_cell p.board i j == 0))
      else
        (st2.1 + 1, st2.2 && (get_cell p.board i j == st2.1))) st) ((1 : Nat), true)).2

/-- Rust `Puzzle::count_inversions` (puzzle.rs lines 153-165). -/
def count_inversions (flattened : List Nat) : Nat :=
  ((flattened.enum.filter (fun iv => iv.2 != 0)).map (fun iv =>
    ((flattened.drop (iv.1 + 1)).filter
      (fun next => next != 0 && decide (next < iv.2))).length)).sum

/-- Rust `Puzzle::is_solvable` (puzzle.rs lines 141-151). -/
def is_solvable (flattened : List Nat) (size : Nat) (empty_row : Nat) : Bool :=
  let inversions := count_inversions flattened
  if size % 2 = 1 then
    inversions % 2 == 0
  else
    (inversions + empty_row) % 2 == 1

/-- Rust `Puzzle::is_current_state_solvable` (puzzle.rs lines 130-139). -/
def is_current_state_solvable (p : Puzzle) : Bool :=
  let flat_board := p.board.flatten
  is_solvable flat_board p.size p.x_pos

/-- Rust `Puzzle::manhattan_distance` (puzzle.rs lines 295-309). -/
def manhattan_distance (p : Puzzle) : Nat :=
  (List.range p.size).foldl (fun distance i =>
    (List.range p.size).foldl (fun d2 j =>
      let value := get_cell p.board i j
      if value ≠ 0 then
        let target_x := (value - 1) / p.size
        let target_y := (value - 1) % p.size
        d2 + ((i : Int) - (target_x : Int)).natAbs + ((j : Int) - (target_y : Int)).natAbs
      else d2) distance) 0

/-- Rust `Puzzle::linear_conflicts` (puzzle.rs lines 311-345): a row scan and then
a column scan accumulate into one `conflicts` counter; each line is scanned
with its own running `max_seen` (first component of the fold state). -/
def linear_conflicts (p : Puzzle) : Nat :=
  let conflicts := (List.range p.size).foldl (fun conflicts row =>
    ((List.range p.size).foldl (fun st col =>
      let value := get_cell p.board row col
      if value ≠ 0 ∧ (value - 1) / p.size = row then
        if value > st.1 then (value, st.2) else (st.1, st.2 + 1)
      else st) ((0 : Nat), conflicts)).2) 0
  (List.range p.size).foldl (fun conflicts col =>
    ((List.range p.size).foldl (fun st row =>
      let value := get_cell p.board row col
      if value ≠ 0 ∧ (value - 1) % p.size = col then
        if value > st.1 then (value, st.2) else (st.1, st.2 + 1)
      else st) ((0 : Nat), conflicts)).2) conflicts

/-- Rust `Puzzle::heuristic` (puzzle.rs lines 291-293). -/
def heuristic (p : Puzzle) : Nat :=
  manhattan_distance p + 2 * linear_conflicts p

end Puzzle

/-- Rust `usize::MAX` (the sentinel used by the search; 64-bit target). -/
def usizeMax : Nat := 2 ^ 64 - 1

/-- The cycle check inside `ida_star_search` (puzzle.rs lines 247-253):
`path.windows(2).any(...)` over the whole path buffer; `windows(2)` of a
list is `path.zip path.tail`. -/
def is_cycle (path : List Move) (dir : Move) : Bool :=
  (path.zip path.tail).any (fun w => w.1 == dir.opposite && w.2 == dir)

namespace Puzzle

/-- The `for &dir in &moves` loop of `ida_star_search` (puzzle.rs lines
238-277), one iteration per element of `moves`, threading the shared `path`
buffer and the running `min`.  The recursive call on the child puzzle is
abstracted as `recur` (it is `ida_star_search` with one unit less fuel and
the same `bound`). -/
def ida_loop (recur : Puzzle → Nat → List Move → Option Move → Except Nat (List Move) × List Move)
    (p : Puzzle) (g : Nat) (last_move : Option Move) :
    List Move → List Move → Nat → Except Nat (List Move) × List Move
  | [], path, min => (Except.error min, path)
  | dir :: rest, path, min =>
    if (match last_move with | some last => dir == last.opposite | none => false) then
      ida_loop recur p g last_move rest path min
    else
      match try_move p dir with
      | none => ida_loop recur p g last_move rest path min
      | some new_puzzle =>
        if is_cycle path dir then
          ida_loop recur p g last_move rest path min
        else
          let path1 := path ++ [dir]
          if path1.length > p.size * p.size * 4 then
            ida_loop recur p g last_move rest path1.dropLast min
          else
            match recur new_puzzle (g + 1) path1 (some dir) with
            | (Except.ok solution, path2) => (Except.ok solution, path2)
            | (Except.error t, path2) =>
              ida_loop recur p g last_move rest path2.dropLast
                (if t < min then t else min)

/-- Rust `Puzzle::ida_star_search` (puzzle.rs lines 220-280).  The extra `fuel`
argument makes the recursion structural; the source recursion terminates
because a call with `g > bound` returns at the `f > bound` check, so any
`fuel ≥ bound + 2 - g` (in particular the `bound + 2` that `solve` passes
at `g = 0`) never reaches the out-of-fuel branch. -/
def ida_star_search : Nat → Puzzle → Nat → Nat → List Move → Option Move →
    Except Nat (List Move) × List Move
  | 0, _, _, _, path, _ => (Except.error usizeMax, path)
  | fuel + 1, p, g, bound, path, last_move =>
    let f := g + heuristic p
    if f > bound then
      (Except.error f, path)
    else if is_solved p then
      (Except.ok path, path)
    else
      ida_loop (fun q g1 path1 last1 => ida_star_search fuel q g1 bound path1 last1)
        p g last_move [Move.Up, Move.Down, Move.Left, Move.Right] path usizeMax

/-- Rust `MAX_ITERATIONS` (puzzle.rs line 192). -/
def MAX_ITERATIONS : Nat := 1000000

/-- The `loop` of `Puzzle::solve` (puzzle.rs lines 198-217), with the
remaining iteration budget as the recursion argument: the source increments
`iterations` and fails once it exceeds `MAX_ITERATIONS`, so the loop body
runs at most `MAX_ITERATIONS` times. -/
def solve_loop : Nat → Puzzle → Nat → List Move → Except String (List Move)
  | 0, _, _, _ => Except.error "Maximum iterations exceeded"
  | n + 1, p, bound, path =>
    match ida_star_search (bound + 2) p 0 bound path none with
    | (Except.ok solution, _) => Except.ok solution
    | (Except.error new_bound, path2) =>
      if new_bound == usizeMax then Except.error "No solution found"
      else if new_bound ≤ bound then Except.error "No progress possible"
      else solve_loop n p new_bound path2

/-- Rust `Puzzle::solve` (puzzle.rs lines 188-218). -/
def solve (p : Puzzle) : Except String (List Move) :=
  let bound := heuristic p
  if !is_current_state_solvable p then
    Except.error "Puzzle is not solvable"
  else
    solve_loop MAX_ITERATIONS p bound []

end Puzzle

/-!
 ## Specification-side definitions

These are stated from the claims' words (board shape, the blank invariant,
the pair readings of inversions and linear conflicts, the last-two-moves
reading of the cycle guard), to be compared with the embedded code.
-/

/-- The move's target cell: the blank's position plus the move's offset
(spec §4.1). -/
def move_target (p : Puzzle) (m : Move) : Int × Int :=
  ((p.x_pos : Int) + m.as_offset.1, (p.y_pos : Int) + m.as_offset.2)

/-- The boundary condition of `apply_move` (spec §4.1): the target cell lies
inside the grid. -/
def in_bounds (p : Puzzle) (m : Move) : Prop :=
  0 ≤ (move_target p m).1 ∧ (move_target p m).1 < (p.size : Int) ∧
  0 ≤ (move_target p m).2 ∧ (move_target p m).2 < (p.size : Int)

instance (p : Puzzle) (m : Move) : Decidable (in_bounds p m) := by
  unfold in_bounds; infer_instance

/-- Representation well-formedness: the grid is `size` × `size` and the
cached blank coordinates are in range. -/
def WFBoard (p : Puzzle) : Prop :=
  p.board.length = p.size ∧ (∀ row ∈ p.board, row.length = p.size) ∧
  p.x_pos < p.size ∧ p.y_pos < p.size

instance (p : Puzzle) : Decidable (WFBoard p) := by
  unfold WFBoard; infer_instance

/-- The board-state invariant of spec §3: the tiles grid contains each value
in `{0, …, N²−1}` exactly once and the cached blank coordinates point at the
cell holding 0 (shape well-formedness included: the grid is `N` × `N`). -/
def PuzzleInv (p : Puzzle) : Prop :=
  WFBoard p ∧ get_cell p.board p.x_pos p.y_pos = 0 ∧
  ∀ v, v < p.size * p.size → p.board.flatten.count v = 1

instance (p : Puzzle) : Decidable (PuzzleInv p) := by
  unfold PuzzleInv; infer_instance

/-!
 ## Cell access lemmas
-/

theorem length_set_cell (board : List (List Nat)) (i j v : Nat) :
    (set_cell board i j v).length = board.length := by
  simp [set_cell]

theorem getD_set_self {α : Type} (l : List α) (i : Nat) (a d : α) (h : i < l.length) :
    (l.set i a).getD i d = a := by
  simp [List.getD_eq_getD_get?, List.get?_eq_getElem?, List.getElem?_set, h]

theorem getD_set_ne {α : Type} (l : List α) (i j : Nat) (a d : α) (h : i ≠ j) :
    (l.set i a).getD j d = l.getD j d := by
  simp [List.getD_eq_getD_get?, List.get?_eq_getElem?, List.getElem?_set, h]

theorem get_cell_set_cell_self (board : List (List Nat)) (i j v : Nat)
    (hi : i < board.length) (hj : j < (board.getD i []).length) :
    get_cell (set_cell board i j v) i j = v := by
  unfold get_cell set_cell
  rw [getD_set_self _ _ _ _ hi, getD_set_self _ _ _ _ hj]

theorem get_cell_set_cell_ne (board : List (List Nat)) (i j v i' j' : Nat)
    (h : i ≠ i' ∨ j ≠ j') :
    get_cell (set_cell board i j v) i' j' = get_cell board i' j' := by
  unfold get_cell set_cell
  rcases h with h | h
  · rw [getD_set_ne _ _ _ _ _ h]
  · by_cases hii : i = i'
    · subst hii
      by_cases hi : i < board.length
      · rw [getD_set_self _ _ _ _ hi, getD_set_ne _ _ _ _ _ h]
      · rw [List.set_eq_of_length_le (by omega)]
    · rw [getD_set_ne _ _ _ _ _ hii]

theorem mem_set_cell (board : List (List Nat)) (i j v : Nat) (row : List Nat)
    (h : row ∈ set_cell board i j v) :
    row ∈ board ∨ row = (board.getD i []).set j v := by
  unfold set_cell at h
  by_cases hi : i < board.length
  · rw [List.set_eq_take_cons_drop _ hi] at h
    rcases List.mem_append.mp h with h | h
    · exact Or.inl (List.mem_of_mem_take h)
    · rcases List.mem_cons.mp h with h | h
      · exact Or.inr h
      · exact Or.inl (List.mem_of_mem_drop h)
  · rw [List.set_eq_of_length_le (by omega)] at h
    exact Or.inl h

/-!
 ## `apply_move` characterization (claims C7, C8, C9)
-/

namespace Puzzle

theorem apply_move_of_not_in_bounds (p : Puzzle) (m : Move) (h : ¬ in_bounds p m) :
    p.apply_move m = (false, p) := by
  unfold apply_move
  exact if_neg h

theorem apply_move_of_in_bounds (p : Puzzle) (m : Move) (h : in_bounds p m) :
    p.apply_move m =
      (true, { p with
        board := set_cell (set_cell p.board p.x_pos p.y_pos
            (get_cell p.board (move_target p m).1.toNat (move_target p m).2.toNat))
          (move_target p m).1.toNat (move_target p m).2.toNat 0,
        x_pos := (move_target p m).1.toNat, y_pos := (move_target p m).2.toNat }) := by
  unfold apply_move
  exact if_pos h

/-- The target cell of an in-bounds move differs from the blank's cell. -/
theorem move_target_ne (p : Puzzle) (m : Move) (h : in_bounds p m) :
    ¬((move_target p m).1.toNat = p.x_pos ∧ (move_target p m).2.toNat = p.y_pos) := by
  obtain ⟨h1, h2, h3, h4⟩ := h
  cases m <;> simp only [move_target, Move.as_offset] at * <;> omega

theorem move_target_lt (p : Puzzle) (m : Move) (h : in_bounds p m) :
    (move_target p m).1.toNat < p.size ∧ (move_target p m).2.toNat < p.size := by
  obtain ⟨h1, h2, h3, h4⟩ := h
  omega

end Puzzle

theorem WFBoard_row_length {p : Puzzle} (h : WFBoard p) {i : Nat} (hi : i < p.size) :
    (p.board.getD i []).length = p.size := by
  obtain ⟨hlen, hrows, _, _⟩ := h
  have hi' : i < p.board.length := by omega
  rw [List.getD_eq_getElem _ _ hi']
  exact hrows _ (List.getElem_mem hi')

theorem set_cell_shape (board : List (List Nat)) (s i j v : Nat)
    (hlen : board.length = s) (hrows : ∀ row ∈ board, row.length = s) (hi : i < s) :
    (set_cell board i j v).length = s ∧ (∀ row ∈ set_cell board i j v, row.length = s) := by
  refine ⟨by rw [length_set_cell]; exact hlen, fun row hrow => ?_⟩
  rcases mem_set_cell _ _ _ _ _ hrow with h | h
  · exact hrows _ h
  · rw [h, List.length_set, List.getD_eq_getElem _ _ (by omega)]
    exact hrows _ (List.getElem_mem (by omega))

theorem board_ext (b1 b2 : List (List Nat)) (s : Nat)
    (hl1 : b1.length = s) (hl2 : b2.length = s)
    (hr1 : ∀ row ∈ b1, row.length = s) (hr2 : ∀ row ∈ b2, row.length = s)
    (h : ∀ i j, i < s → j < s → get_cell b1 i j = get_cell b2 i j) : b1 = b2 := by
  apply List.ext_getElem?
  intro i
  by_cases hi : i < s
  · have h1 : i < b1.length := by omega
    have h2 : i < b2.length := by omega
    rw [List.getElem?_eq_getElem h1, List.getElem?_eq_getElem h2]
    congr 1
    apply List.ext_getElem?
    intro j
    have hb1 : b1[i].length = s := hr1 _ (List.getElem_mem h1)
    have hb2 : b2[i].length = s := hr2 _ (List.getElem_mem h2)
    by_cases hj : j < s
    · have hj1 : j < b1[i].length := by omega
      have hj2 : j < b2[i].length := by omega
      rw [List.getElem?_eq_getElem hj1, List.getElem?_eq_getElem hj2]
      have := h i j hi hj
      unfold get_cell at this
      rw [List.getD_eq_getElem _ _ h1, List.getD_eq_getElem _ _ h2,
        List.getD_eq_getElem _ _ hj1, List.getD_eq_getElem _ _ hj2] at this
      simp [this]
    · rw [List.getElem?_eq_none (by omega), List.getElem?_eq_none (by omega)]
  · rw [List.getElem?_eq_none (by omega), List.getElem?_eq_none (by omega)]

theorem rows_length_getD (board : List (List Nat)) (s i : Nat)
    (hlen : board.length = s) (hrows : ∀ row ∈ board, row.length = s) (hi : i < s) :
    (board.getD i []).length = s := by
  have hi' : i < board.length := by omega
  rw [List.getD_eq_getElem _ _ hi']
  exact hrows _ (List.getElem_mem hi')

/-- Pointwise description of a successful `apply_move` (helper shared by the
claim theorems): returns true, blank coordinates move to the target, the old
blank cell receives the target tile, the target cell receives the blank. -/
theorem apply_move_in_bounds_spec (p : Puzzle) (m : Move)
    (hwf : WFBoard p) (hblank : get_cell p.board p.x_pos p.y_pos = 0) :
    (in_bounds p m →
      (p.apply_move m).1 = true ∧
      (p.apply_move m).2.size = p.size ∧
      (p.apply_move m).2.x_pos = (move_target p m).1.toNat ∧
      (p.apply_move m).2.y_pos = (move_target p m).2.toNat ∧
      get_cell (p.apply_move m).2.board p.x_pos p.y_pos
        = get_cell p.board (move_target p m).1.toNat (move_target p m).2.toNat ∧
      get_cell (p.apply_move m).2.board (move_target p m).1.toNat (move_target p m).2.toNat
        = get_cell p.board p.x_pos p.y_pos ∧
      (∀ i j, ¬(i = p.x_pos ∧ j = p.y_pos) →
        ¬(i = (move_target p m).1.toNat ∧ j = (move_target p m).2.toNat) →
        get_cell (p.apply_move m).2.board i j = get_cell p.board i j)) := by
  · intro h
    obtain ⟨hlen, hrows, hx, hy⟩ := hwf
    obtain ⟨htx, hty⟩ := p.move_target_lt m h
    have hne := p.move_target_ne m h
    have hne' : (move_target p m).1.toNat ≠ p.x_pos ∨ (move_target p m).2.toNat ≠ p.y_pos := by
      by_contra hc
      push_neg at hc
      exact hne ⟨hc.1, hc.2⟩
    have hsh1 := set_cell_shape p.board p.size p.x_pos p.y_pos
      (get_cell p.board (move_target p m).1.toNat (move_target p m).2.toNat) hlen hrows hx
    have hrow0 : (p.board.getD p.x_pos []).length = p.size :=
      rows_length_getD p.board p.size p.x_pos hlen hrows hx
    have hrow1 : ((set_cell p.board p.x_pos p.y_pos
        (get_cell p.board (move_target p m).1.toNat (move_target p m).2.toNat)).getD
          (move_target p m).1.toNat []).length = p.size :=
      rows_length_getD _ p.size _ hsh1.1 hsh1.2 htx
    rw [p.apply_move_of_in_bounds m h]
    dsimp only
    refine ⟨rfl, rfl, rfl, rfl, ?_, ?_, ?_⟩
    · rw [get_cell_set_cell_ne _ _ _ _ _ _ (by tauto),
        get_cell_set_cell_self _ _ _ _ (by omega) (by omega)]
    · rw [get_cell_set_cell_self _ _ _ _ (by omega) (by omega), hblank]
    · intro i j hij1 hij2
      rw [get_cell_set_cell_ne _ _ _ _ _ _ (by tauto), get_cell_set_cell_ne _ _ _ _ _ _ (by tauto)]

/-- C7: For every (well-formed, blank-coherent) board state and every
move direction: if the blank's position plus the move's offset lies out of
bounds, `apply_move` returns `false` and leaves the state completely
unchanged; otherwise it swaps the blank with the tile at the target
coordinates (the old blank cell receives the target's tile, the target cell
receives the blank), updates the cached blank coordinates to the target, and
returns `true`. -/
theorem C7_apply_move_boundary_and_swap (p : Puzzle) (m : Move)
    (hwf : WFBoard p) (hblank : get_cell p.board p.x_pos p.y_pos = 0) :
    (¬ in_bounds p m → p.apply_move m = (false, p)) ∧
    (in_bounds p m →
      (p.apply_move m).1 = true ∧
      (p.apply_move m).2.size = p.size ∧
      (p.apply_move m).2.x_pos = (move_target p m).1.toNat ∧
      (p.apply_move m).2.y_pos = (move_target p m).2.toNat ∧
      get_cell (p.apply_move m).2.board p.x_pos p.y_pos
        = get_cell p.board (move_target p m).1.toNat (move_target p m).2.toNat ∧
      get_cell (p.apply_move m).2.board (move_target p m).1.toNat (move_target p m).2.toNat
        = get_cell p.board p.x_pos p.y_pos ∧
      (∀ i j, ¬(i = p.x_pos ∧ j = p.y_pos) →
        ¬(i = (move_target p m).1.toNat ∧ j = (move_target p m).2.toNat) →
        get_cell (p.apply_move m).2.board i j = get_cell p.board i j)) :=
  ⟨fun h => p.apply_move_of_not_in_bounds m h, apply_move_in_bounds_spec p m hwf hblank⟩

/-- C7 witness: `Puzzle.new 2` with `Move.Up` (target row 2 is out of
bounds: the move is rejected and the state is unchanged). -/
theorem C7_witness : (Puzzle.new 2).apply_move Move.Up = (false, Puzzle.new 2) :=
  (C7_apply_move_boundary_and_swap (Puzzle.new 2) Move.Up (by decide) (by decide)).1 (by decide)

theorem apply_move_WF (p : Puzzle) (m : Move) (hwf : WFBoard p) :
    WFBoard (p.apply_move m).2 := by
  by_cases h : in_bounds p m
  · obtain ⟨hlen, hrows, hx, hy⟩ := hwf
    obtain ⟨htx, hty⟩ := p.move_target_lt m h
    have hsh1 := set_cell_shape p.board p.size p.x_pos p.y_pos
      (get_cell p.board (move_target p m).1.toNat (move_target p m).2.toNat) hlen hrows hx
    have hsh2 := set_cell_shape _ p.size (move_target p m).1.toNat (move_target p m).2.toNat 0
      hsh1.1 hsh1.2 htx
    rw [p.apply_move_of_in_bounds m h]
    exact ⟨hsh2.1, hsh2.2, htx, hty⟩
  · rw [p.apply_move_of_not_in_bounds m h]
    exact hwf

theorem in_bounds_opposite (p : Puzzle) (m : Move) (hwf : WFBoard p) (h : in_bounds p m) :
    in_bounds (p.apply_move m).2 m.opposite ∧
    (move_target (p.apply_move m).2 m.opposite).1.toNat = p.x_pos ∧
    (move_target (p.apply_move m).2 m.opposite).2.toNat = p.y_pos := by
  obtain ⟨hlen, hrows, hx, hy⟩ := hwf
  rw [p.apply_move_of_in_bounds m h]
  dsimp only
  obtain ⟨h1, h2, h3, h4⟩ := h
  unfold in_bounds move_target at *
  cases m <;> simp only [Move.opposite, Move.as_offset] at * <;>
    refine ⟨⟨?_, ?_, ?_, ?_⟩, ?_, ?_⟩ <;> omega

theorem puzzle_ext (a b : Puzzle) (h1 : a.size = b.size) (h2 : a.board = b.board)
    (h3 : a.x_pos = b.x_pos) (h4 : a.y_pos = b.y_pos) : a = b := by
  cases a; cases b; simp_all

/-- C8: For every (well-formed, blank-coherent) board state and every
move `m` such that `apply_move m` returns `true`, subsequently calling
`apply_move (opposite m)` returns `true` and restores the state to exactly
its original value (board contents and blank coordinates). -/
theorem C8_apply_move_opposite_inverse (p : Puzzle) (m : Move)
    (hwf : WFBoard p) (hblank : get_cell p.board p.x_pos p.y_pos = 0)
    (h : (p.apply_move m).1 = true) :
    (p.apply_move m).2.apply_move m.opposite = (true, p) := by
  have hib : in_bounds p m := by
    by_contra hc
    rw [p.apply_move_of_not_in_bounds m hc] at h
    exact Bool.false_ne_true h
  obtain ⟨hlen, hrows, hx, hy⟩ := hwf
  obtain ⟨htx, hty⟩ := p.move_target_lt m hib
  have hne := p.move_target_ne m hib
  obtain ⟨hmv, hsz, hxp, hyp, hc1, hc2, hother⟩ :=
    apply_move_in_bounds_spec p m ⟨hlen, hrows, hx, hy⟩ hblank hib
  obtain ⟨hib2, htx2, hty2⟩ := in_bounds_opposite p m ⟨hlen, hrows, hx, hy⟩ hib
  have hwf1 : WFBoard (p.apply_move m).2 := apply_move_WF p m ⟨hlen, hrows, hx, hy⟩
  have hblank1 : get_cell (p.apply_move m).2.board (p.apply_move m).2.x_pos
      (p.apply_move m).2.y_pos = 0 := by
    rw [hxp, hyp, hc2, hblank]
  obtain ⟨hmv', hsz', hxp', hyp', hc1', hc2', hother'⟩ :=
    apply_move_in_bounds_spec _ m.opposite hwf1 hblank1 hib2
  have hwf2 : WFBoard ((p.apply_move m).2.apply_move m.opposite).2 :=
    apply_move_WF _ m.opposite hwf1
  rw [hxp, hyp] at hc1' hother'
  rw [htx2, hty2] at hc1' hc2' hother'
  rw [hxp, hyp] at hc2'
  have hboard : ((p.apply_move m).2.apply_move m.opposite).2.board = p.board := by
    apply board_ext _ _ p.size
    · have h2 := hwf2.1
      rw [hsz', hsz] at h2
      exact h2
    · exact hlen
    · have h2 := hwf2.2.1
      rw [hsz', hsz] at h2
      exact h2
    · exact hrows
    · intro i j hi hj
      by_cases hcase1 : i = p.x_pos ∧ j = p.y_pos
      · obtain ⟨rfl, rfl⟩ := hcase1
        rw [hc2', hc2]
      · by_cases hcase2 : i = (move_target p m).1.toNat ∧ j = (move_target p m).2.toNat
        · obtain ⟨rfl, rfl⟩ := hcase2
          rw [hc1', hc1]
        · rw [hother' i j hcase2 hcase1, hother i j hcase1 hcase2]
  refine Prod.ext hmv' (puzzle_ext _ _ ?_ ?_ ?_ ?_)
  · rw [hsz', hsz]
  · exact hboard
  · rw [hxp', htx2]
  · rw [hyp', hty2]

/-- C8 witness: on the goal 2×2 board, `Move.Down` moves the blank up and
its opposite (`Move.Up`) restores the goal state exactly. -/
theorem C8_witness :
    ((Puzzle.new 2).apply_move Move.Down).2.apply_move Move.Down.opposite
      = (true, Puzzle.new 2) :=
  C8_apply_move_opposite_inverse (Puzzle.new 2) Move.Down (by decide) (by decide) (by decide)

/-!
 ## Characterization of `Puzzle.new` (claim C9)
-/

theorem new_inner_fold (size i k : Nat) (hk : ∀ j, j < k → ¬(i = size - 1 ∧ j = size - 1)) :
    ∀ (r0 : List Nat) (v : Nat),
    (List.range k).foldl (fun racc j =>
      if i = size - 1 ∧ j = size - 1 then (racc.1 ++ [0], racc.2)
      else (racc.1 ++ [racc.2], racc.2 + 1)) (r0, v)
      = (r0 ++ List.range' v k, v + k) := by
  induction k with
  | zero => intro r0 v; simp
  | succ n ih =>
    intro r0 v
    rw [List.range_succ, List.foldl_append, ih (fun j hj => hk j (by omega)) r0 v]
    simp only [List.foldl_cons, List.foldl_nil]
    rw [if_neg (hk n (by omega)), List.range'_1_concat]
    simp [List.append_assoc]
    omega

theorem foldl_range_succ {α : Type} (f : α → Nat → α) (b : α) (n : Nat) :
    (List.range (n + 1)).foldl f b = f ((List.range n).foldl f b) n := by
  rw [List.range_succ, List.foldl_append]
  rfl

theorem new_inner_fold_last (size i : Nat) (hs : 1 ≤ size) (hi : i = size - 1)
    (r0 : List Nat) (v : Nat) :
    (List.range size).foldl (fun racc j =>
      if i = size - 1 ∧ j = size - 1 then (racc.1 ++ [0], racc.2)
      else (racc.1 ++ [racc.2], racc.2 + 1)) (r0, v)
      = (r0 ++ List.range' v (size - 1) ++ [0], v + (size - 1)) := by
  subst hi
  obtain ⟨n, rfl⟩ : ∃ n, size = n + 1 := ⟨size - 1, by omega⟩
  rw [foldl_range_succ, new_inner_fold (n + 1) (n + 1 - 1) n (fun j hj => by omega) r0 v]
  have hcond : n + 1 - 1 = n + 1 - 1 ∧ n = n + 1 - 1 := ⟨rfl, by omega⟩
  simp only [if_pos hcond]
  simp

theorem new_outer_fold (size : Nat) : ∀ (k : Nat), k ≤ size - 1 →
    ∀ (b0 : List (List Nat)) (v : Nat),
    (List.range k).foldl (fun acc i =>
      (acc.1 ++ [((List.range size).foldl (fun racc j =>
        if i = size - 1 ∧ j = size - 1 then (racc.1 ++ [0], racc.2)
        else (racc.1 ++ [racc.2], racc.2 + 1)) ([], acc.2)).1],
       ((List.range size).foldl (fun racc j =>
        if i = size - 1 ∧ j = size - 1 then (racc.1 ++ [0], racc.2)
        else (racc.1 ++ [racc.2], racc.2 + 1)) ([], acc.2)).2)) (b0, v)
      = (b0 ++ (List.range k).map (fun i => List.range' (v + i * size) size),
         v + k * size) := by
  intro k
  induction k with
  | zero => intro hk b0 v; simp
  | succ n ih =>
    intro hk b0 v
    rw [foldl_range_succ, ih (by omega) b0 v]
    dsimp only
    rw [new_inner_fold size n size (fun j hj hc => by omega) [] (v + n * size)]
    rw [List.range_succ, List.map_append]
    simp only [List.map_cons, List.map_nil, List.nil_append]
    rw [← List.append_assoc]
    have harith : v + n * size + size = v + (n + 1) * size := by ring
    rw [harith]

theorem new_board_eq (size : Nat) (hs : 1 ≤ size) :
    (Puzzle.new size).board
      = (List.range (size - 1)).map (fun i => List.range' (1 + i * size) size)
        ++ [List.range' (1 + (size - 1) * size) (size - 1) ++ [0]] := by
  unfold Puzzle.new
  dsimp only
  obtain ⟨n, rfl⟩ : ∃ n, size = n + 1 := ⟨size - 1, by omega⟩
  rw [foldl_range_succ, new_outer_fold (n + 1) n (by omega) [] 1]
  dsimp only
  rw [new_inner_fold_last (n + 1) n (by omega) (by omega) [] (1 + n * (n + 1))]
  simp only [List.nil_append, Nat.add_sub_cancel]

theorem flatten_map_range' (s : Nat) : ∀ (k : Nat),
    ((List.range k).map (fun i => List.range' (1 + i * s) s)).flatten
      = List.range' 1 (k * s) := by
  intro k
  induction k with
  | zero => simp
  | succ n ih =>
    rw [List.range_succ, List.map_append, List.flatten_append, ih]
    simp only [List.map_cons, List.map_nil, List.flatten_cons, List.flatten_nil,
      List.append_nil]
    have h1 : 1 + n * s = 1 + 1 * (n * s) := by ring
    rw [h1, List.range'_append 1 (n * s) s 1]
    have h2 : s + n * s = (n + 1) * s := by ring
    rw [h2]

theorem new_flatten (size : Nat) (hs : 1 ≤ size) :
    (Puzzle.new size).board.flatten = List.range' 1 (size * size - 1) ++ [0] := by
  rw [new_board_eq size hs, List.flatten_concat, flatten_map_range', ← List.append_assoc]
  have h1 : 1 + (size - 1) * size = 1 + 1 * ((size - 1) * size) := by ring
  rw [h1, List.range'_append 1 ((size - 1) * size) (size - 1) 1]
  have h2 : size - 1 + (size - 1) * size = size * size - 1 := by
    obtain ⟨n, rfl⟩ : ∃ n, size = n + 1 := ⟨size - 1, by omega⟩
    have h3 : (n + 1) * (n + 1) = n * (n + 1) + n + 1 := by ring
    simp only [Nat.add_sub_cancel]
    omega
  rw [h2]

theorem new_WF (size : Nat) (hs : 1 ≤ size) : WFBoard (Puzzle.new size) := by
  have hb := new_board_eq size hs
  refine ⟨?_, ?_, ?_, ?_⟩
  · show (Puzzle.new size).board.length = size
    rw [hb]
    simp only [List.length_append, List.length_map, List.length_range, List.length_cons,
      List.length_nil]
    omega
  · show ∀ row ∈ (Puzzle.new size).board, row.length = size
    rw [hb]
    intro row hrow
    rcases List.mem_append.mp hrow with h | h
    · obtain ⟨i, hi, rfl⟩ := List.mem_map.mp h
      simp [List.length_range']
    · rw [List.mem_singleton] at h
      subst h
      simp only [List.length_append, List.length_range', List.length_cons, List.length_nil]
      omega
  · show size - 1 < size
    omega
  · show size - 1 < size
    omega

theorem new_blank (size : Nat) (hs : 1 ≤ size) :
    get_cell (Puzzle.new size).board (size - 1) (size - 1) = 0 := by
  rw [new_board_eq size hs]
  unfold get_cell
  rw [List.getD_append_right _ _ _ _ (by simp [List.length_map, List.length_range])]
  simp only [List.length_map, List.length_range, Nat.sub_self, List.getD_cons_zero]
  rw [List.getD_append_right _ _ _ _ (by simp [List.length_range'])]
  simp [List.length_range']

theorem new_count (size : Nat) (hs : 1 ≤ size) :
    ∀ v, v < size * size → (Puzzle.new size).board.flatten.count v = 1 := by
  intro v hv
  rw [new_flatten size hs, List.count_append]
  by_cases h0 : v = 0
  · subst h0
    have hz : List.count 0 (List.range' 1 (size * size - 1)) = 0 := by
      rw [List.count_eq_zero]
      intro hmem
      rw [List.mem_range'] at hmem
      omega
    rw [hz]
    simp
  · have hmem : v ∈ List.range' 1 (size * size - 1) := by
      rw [List.mem_range']
      exact ⟨v - 1, by omega, by omega⟩
    rw [List.count_eq_one_of_mem (List.nodup_range' 1 (size * size - 1)) hmem,
      List.count_singleton]
    simp [Ne.symm h0]

theorem new_inv (size : Nat) (hs : 1 ≤ size) : PuzzleInv (Puzzle.new size) :=
  ⟨new_WF size hs, new_blank size hs, new_count size hs⟩

/-!
 ## Flatten correspondence and invariant preservation (claim C9)
-/

theorem get_cell_flatten (board : List (List Nat)) (s : Nat)
    (hrows : ∀ row ∈ board, row.length = s) :
    ∀ (i j : Nat), i < board.length → j < s →
    get_cell board i j = board.flatten.getD (i * s + j) 0 := by
  induction board with
  | nil => intro i j hi hj; simp at hi
  | cons r rest ih =>
    intro i j hi hj
    have hr : r.length = s := hrows r (by simp)
    cases i with
    | zero =>
      unfold get_cell
      rw [List.getD_cons_zero, List.flatten_cons]
      rw [Nat.zero_mul, Nat.zero_add, List.getD_append _ _ _ _ (by omega)]
    | succ i =>
      have hstep : get_cell (r :: rest) (i + 1) j = get_cell rest i j := by
        unfold get_cell
        rw [List.getD_cons_succ]
      rw [hstep, List.flatten_cons,
        List.getD_append_right _ _ _ _ (by rw [show (i + 1) * s = i * s + s from by ring]; omega)]
      have hidx : (i + 1) * s + j - r.length = i * s + j := by
        rw [show (i + 1) * s = i * s + s from by ring]
        omega
      rw [hidx]
      exact ih (fun row hrow => hrows row (by simp [hrow])) i j (by simpa using hi) hj

theorem flatten_set_cell (board : List (List Nat)) (s : Nat)
    (hrows : ∀ row ∈ board, row.length = s) :
    ∀ (i j v : Nat), i < board.length → j < s →
    (set_cell board i j v).flatten = board.flatten.set (i * s + j) v := by
  induction board with
  | nil => intro i j v hi hj; simp at hi
  | cons r rest ih =>
    intro i j v hi hj
    have hr : r.length = s := hrows r (by simp)
    cases i with
    | zero =>
      have hstep : set_cell (r :: rest) 0 j v = (r.set j v) :: rest := by
        unfold set_cell
        rw [List.getD_cons_zero, List.set_cons_zero]
      rw [hstep, List.flatten_cons, List.flatten_cons, Nat.zero_mul, Nat.zero_add,
        List.set_append, if_pos (by omega)]
    | succ i =>
      have hstep : set_cell (r :: rest) (i + 1) j v = r :: set_cell rest i j v := by
        unfold set_cell
        rw [List.getD_cons_succ, List.set_cons_succ]
      rw [hstep, List.flatten_cons, List.flatten_cons, List.set_append,
        if_neg (by rw [show (i + 1) * s = i * s + s from by ring]; omega)]
      have hidx : (i + 1) * s + j - r.length = i * s + j := by
        rw [show (i + 1) * s = i * s + s from by ring]
        omega
      rw [hidx, ih (fun row hrow => hrows row (by simp [hrow])) i j v (by simpa using hi) hj]

theorem flatten_length_grid (board : List (List Nat)) (s : Nat)
    (hrows : ∀ row ∈ board, row.length = s) :
    board.flatten.length = board.length * s := by
  induction board with
  | nil => simp
  | cons r rest ih =>
    simp only [List.flatten_cons, List.length_append, List.length_cons]
    rw [hrows r (by simp), ih (fun row hrow => hrows row (by simp [hrow]))]
    ring

theorem cell_index_inj (s x y tx ty : Nat) (hy : y < s) (hty : ty < s)
    (h : x * s + y = tx * s + ty) : x = tx ∧ y = ty := by
  rcases Nat.lt_trichotomy x tx with hlt | heq | hgt
  · have h1 : (x + 1) * s ≤ tx * s := Nat.mul_le_mul_right s (by omega)
    have h2 : (x + 1) * s = x * s + s := by ring
    omega
  · subst heq
    omega
  · have h1 : (tx + 1) * s ≤ x * s := Nat.mul_le_mul_right s (by omega)
    have h2 : (tx + 1) * s = tx * s + s := by ring
    omega

theorem cell_index_lt (s x y : Nat) (hx : x < s) (hy : y < s) : x * s + y < s * s := by
  have h1 : (x + 1) * s ≤ s * s := Nat.mul_le_mul_right s (by omega)
  have h2 : (x + 1) * s = x * s + s := by ring
  omega

theorem count_swap_set (L : List Nat) (k1 k2 v vt : Nat)
    (h1 : k1 < L.length) (h2 : k2 < L.length) (hne : k1 ≠ k2)
    (hL1 : L[k1] = 0) (hL2 : L[k2] = vt) (hcv : L.count v = 1) :
    ((L.set k1 vt).set k2 0).count v = 1 := by
  have hlen1 : (L.set k1 vt).length = L.length := List.length_set L k1 vt
  rw [List.count_set 0 v (L.set k1 vt) k2 (by omega), List.count_set vt v L k1 h1]
  rw [List.getElem_set_of_ne hne vt (by omega), hL1, hL2, hcv]
  simp only [beq_iff_eq]
  by_cases hv0 : (0 : Nat) = v <;> by_cases hvt : vt = v <;>
    simp [hv0, hvt]

theorem apply_move_inv (p : Puzzle) (m : Move) (hinv : PuzzleInv p) :
    PuzzleInv (p.apply_move m).2 := by
  obtain ⟨hwf, hblank, hcount⟩ := hinv
  by_cases h : in_bounds p m
  · obtain ⟨hlen, hrows, hx, hy⟩ := hwf
    obtain ⟨htx, hty⟩ := p.move_target_lt m h
    have hne := p.move_target_ne m h
    have hwf1 : WFBoard (p.apply_move m).2 := apply_move_WF p m ⟨hlen, hrows, hx, hy⟩
    obtain ⟨hmv, hsz, hxp, hyp, hc1, hc2, hother⟩ :=
      apply_move_in_bounds_spec p m ⟨hlen, hrows, hx, hy⟩ hblank h
    have hqb : (p.apply_move m).2.board
        = set_cell (set_cell p.board p.x_pos p.y_pos
            (get_cell p.board (move_target p m).1.toNat (move_target p m).2.toNat))
          (move_target p m).1.toNat (move_target p m).2.toNat 0 := by
      rw [p.apply_move_of_in_bounds m h]
    have hsh1 := set_cell_shape p.board p.size p.x_pos p.y_pos
      (get_cell p.board (move_target p m).1.toNat (move_target p m).2.toNat) hlen hrows hx
    refine ⟨hwf1, ?_, ?_⟩
    · rw [hxp, hyp, hc2, hblank]
    · intro v hv
      rw [hsz] at hv
      have hflen : p.board.flatten.length = p.size * p.size := by
        rw [flatten_length_grid p.board p.size hrows, hlen]
      have hk1 : p.x_pos * p.size + p.y_pos < p.size * p.size :=
        cell_index_lt p.size p.x_pos p.y_pos hx hy
      have hk2 : (move_target p m).1.toNat * p.size + (move_target p m).2.toNat
          < p.size * p.size :=
        cell_index_lt p.size _ _ htx hty
      have hkne : p.x_pos * p.size + p.y_pos
          ≠ (move_target p m).1.toNat * p.size + (move_target p m).2.toNat := by
        intro hc
        exact hne ⟨((cell_index_inj p.size _ _ _ _ hy hty hc).1).symm,
          ((cell_index_inj p.size _ _ _ _ hy hty hc).2).symm⟩
      rw [hqb, flatten_set_cell _ p.size hsh1.2 _ _ 0 (by omega) hty,
        flatten_set_cell p.board p.size hrows _ _ _ (by omega) hy]
      have hget1 : p.board.flatten[p.x_pos * p.size + p.y_pos] = 0 := by
        rw [← List.getD_eq_getElem _ 0 (by omega),
          ← get_cell_flatten p.board p.size hrows p.x_pos p.y_pos (by omega) hy]
        exact hblank
      have hget2 : p.board.flatten[(move_target p m).1.toNat * p.size
          + (move_target p m).2.toNat]
          = get_cell p.board (move_target p m).1.toNat (move_target p m).2.toNat := by
        rw [← List.getD_eq_getElem _ 0 (by omega),
          ← get_cell_flatten p.board p.size hrows _ _ (by omega) hty]
      exact count_swap_set p.board.flatten
        (p.x_pos * p.size + p.y_pos)
        ((move_target p m).1.toNat * p.size + (move_target p m).2.toNat)
        v (get_cell p.board (move_target p m).1.toNat (move_target p m).2.toNat)
        (by omega) (by omega) hkne hget1 hget2 (hcount v hv)
  · rw [p.apply_move_of_not_in_bounds m h]
    exact ⟨hwf, hblank, hcount⟩

/-- C9: The board-state invariant — the tiles grid contains each value in
`{0, 1, …, N²−1}` exactly once, and the cached blank coordinates point at the
cell holding 0 — holds for every state produced by `new size` with
`size ≥ 2`, and is preserved by every call to `apply_move` (both when it
returns `true` and when it returns `false`). -/
theorem C9_invariant_new_and_preserved :
    (∀ size, 2 ≤ size → PuzzleInv (Puzzle.new size)) ∧
    (∀ (p : Puzzle) (m : Move), PuzzleInv p → PuzzleInv (p.apply_move m).2) :=
  ⟨fun size hs => new_inv size (by omega), fun p m hinv => apply_move_inv p m hinv⟩

/-- C9 witness at `size = 2` and one blocked plus one successful move. -/
theorem C9_witness :
    PuzzleInv (Puzzle.new 2) ∧ PuzzleInv ((Puzzle.new 2).apply_move Move.Down).2
      ∧ PuzzleInv ((Puzzle.new 2).apply_move Move.Up).2 :=
  ⟨C9_invariant_new_and_preserved.1 2 (by decide),
   C9_invariant_new_and_preserved.2 (Puzzle.new 2) Move.Down
     (C9_invariant_new_and_preserved.1 2 (by decide)),
   C9_invariant_new_and_preserved.2 (Puzzle.new 2) Move.Up
     (C9_invariant_new_and_preserved.1 2 (by decide))⟩

/-!
 ## Inversions as a pair count (claim C5)
-/

/-- The claim's reading of inversions: the number of pairs of positions
`(i, j)` with `i < j`, both entries non-blank, and the earlier entry
strictly larger. -/
def inversion_pairs (flattened : List Nat) : Nat :=
  ((List.range flattened.length).map (fun i =>
    ((List.range flattened.length).filter (fun j =>
      decide (i < j) && flattened.getD i 0 != 0 && flattened.getD j 0 != 0 &&
      decide (flattened.getD j 0 < flattened.getD i 0))).length)).sum

theorem countP_drop_eq_range (f : List Nat) : ∀ (k : Nat) (p : Nat → Bool),
    (f.drop k).countP p
      = (List.range f.length).countP (fun j => decide (k ≤ j) && p (f.getD j 0)) := by
  induction f with
  | nil => intro k p; simp
  | cons r rest ih =>
    intro k p
    rw [List.length_cons, List.range_succ_eq_map, List.countP_cons, List.countP_map]
    have hcomp : ((fun j => decide (k ≤ j) && p ((r :: rest).getD j 0)) ∘ Nat.succ)
        = fun j => decide (k ≤ j + 1) && p (rest.getD j 0) := by
      funext j
      simp [Function.comp, List.getD_cons_succ]
    rw [hcomp]
    cases k with
    | zero =>
      rw [List.drop_zero, List.countP_cons]
      have hc : (List.range rest.length).countP
            (fun j => decide (0 ≤ j + 1) && p (rest.getD j 0))
          = (List.range rest.length).countP (fun j => decide (0 ≤ j) && p (rest.getD j 0)) := by
        apply List.countP_congr
        intro j hj
        simp
      rw [hc, ← ih 0 p, List.drop_zero, List.getD_cons_zero]
      simp
    | succ k =>
      rw [List.drop_succ_cons]
      have hc : (List.range rest.length).countP
            (fun j => decide (k + 1 ≤ j + 1) && p (rest.getD j 0))
          = (List.range rest.length).countP (fun j => decide (k ≤ j) && p (rest.getD j 0)) := by
        apply List.countP_congr
        intro j hj
        simp [Nat.succ_le_succ_iff]
      rw [hc, ← ih k p, List.getD_cons_zero]
      simp

theorem sum_enumFrom_filter (g : Nat → Nat → Nat) :
    ∀ (f : List Nat) (n : Nat),
    (((List.enumFrom n f).filter (fun iv => iv.2 != 0)).map (fun iv => g iv.1 iv.2)).sum
      = ((List.range f.length).map (fun i =>
          if f.getD i 0 != 0 then g (n + i) (f.getD i 0) else 0)).sum := by
  intro f
  induction f with
  | nil => intro n; simp
  | cons r rest ih =>
    intro n
    rw [List.enumFrom_cons, List.length_cons, List.range_succ_eq_map, List.map_cons,
      List.sum_cons, List.filter_cons]
    have hmap : List.map (fun i => if (r :: rest).getD i 0 != 0
          then g (n + i) ((r :: rest).getD i 0) else 0)
          (List.map Nat.succ (List.range rest.length))
        = List.map (fun i => if rest.getD i 0 != 0 then g (n + 1 + i) (rest.getD i 0) else 0)
            (List.range rest.length) := by
      rw [List.map_map]
      apply List.map_congr_left
      intro i hi
      simp only [Function.comp, List.getD_cons_succ]
      rw [show n + (i + 1) = n + 1 + i from by omega]
    rw [hmap]
    simp only [List.getD_cons_zero]
    dsimp only
    by_cases hr : (r != 0) = true
    · simp only [if_pos hr]
      rw [List.map_cons, List.sum_cons, ih (n + 1), Nat.add_zero]
      rfl
    · simp only [if_neg hr]
      rw [ih (n + 1), Nat.zero_add]

theorem count_inversions_eq_pairs (f : List Nat) :
    Puzzle.count_inversions f = inversion_pairs f := by
  unfold Puzzle.count_inversions inversion_pairs
  rw [show f.enum = List.enumFrom 0 f from rfl,
    sum_enumFrom_filter (fun i v =>
      ((f.drop (i + 1)).filter (fun next => next != 0 && decide (next < v))).length) f 0]
  apply congrArg List.sum
  apply List.map_congr_left
  intro i hi
  rw [List.mem_range] at hi
  by_cases h0 : (f.getD i 0 != 0) = true
  · rw [if_pos h0, Nat.zero_add]
    rw [← List.countP_eq_length_filter, ← List.countP_eq_length_filter,
      countP_drop_eq_range f (i + 1)
        (fun next => next != 0 && decide (next < f.getD i 0))]
    apply List.countP_congr
    intro j hj
    simp only [Bool.and_eq_true, decide_eq_true_eq, bne_iff_ne, ne_eq]
    constructor
    · rintro ⟨hij, hnz, hlt⟩
      refine ⟨⟨⟨by omega, by simpa using h0⟩, hnz⟩, hlt⟩
    · rintro ⟨⟨⟨hij, _⟩, hnz⟩, hlt⟩
      exact ⟨by omega, hnz, hlt⟩
  · rw [if_neg h0]
    symm
    rw [← List.countP_eq_length_filter]
    rw [List.countP_eq_zero]
    intro j hj
    simp only [Bool.and_eq_true, decide_eq_true_eq, bne_iff_ne, ne_eq]
    rintro ⟨⟨⟨hij, hnz⟩, _⟩, _⟩
    rw [bne_iff_ne, ne_eq] at h0
    exact h0 (by simpa using hnz)

/-- C5: For every flattened tile sequence that is a permutation of
`{0, …, N²−1}` with blank row index measured from the top, the solvability
check returns true iff: when `N` is odd, the pair-count of inversions is
even; when `N` is even, `(inversions + blank_row) % 2 == 1`. -/
theorem C5_solvability_parity_rule (flattened : List Nat) (size empty_row : Nat)
    (hperm : flattened.Perm (List.range (size * size)))
    (hrow : empty_row = flattened.indexOf 0 / size) :
    Puzzle.is_solvable flattened size empty_row = true ↔
      (if size % 2 = 1 then inversion_pairs flattened % 2 = 0
       else (inversion_pairs flattened + empty_row) % 2 = 1) := by
  unfold Puzzle.is_solvable
  dsimp only
  rw [count_inversions_eq_pairs]
  by_cases hs : size % 2 = 1
  · rw [if_pos hs, if_pos hs]
    simp [beq_iff_eq]
  · rw [if_neg hs, if_neg hs]
    simp [beq_iff_eq]

/-- C5 witness: the solved 3×3 flattening (blank row 2, zero inversions). -/
theorem C5_witness :
    Puzzle.is_solvable [1, 2, 3, 4, 5, 6, 7, 8, 0] 3 2 = true ↔
      (if 3 % 2 = 1 then inversion_pairs [1, 2, 3, 4, 5, 6, 7, 8, 0] % 2 = 0
       else (inversion_pairs [1, 2, 3, 4, 5, 6, 7, 8, 0] + 2) % 2 = 1) :=
  C5_solvability_parity_rule [1, 2, 3, 4, 5, 6, 7, 8, 0] 3 2 (by decide) (by decide)

/-!
 ## The cycle guard and reachable paths (claim C2)
-/

/-- The claim's reading of the cycle guard: only the LAST TWO entries of the
path buffer are consulted — the candidate is skipped iff they are
`(opposite dir, dir)`. -/
def last_two_pattern (path : List Move) (dir : Move) : Bool :=
  match path.getLast?, path.dropLast.getLast? with
  | some nxt, some prv => prv == dir.opposite && nxt == dir
  | _, _ => false

/-- Paths the depth-first search can hold in its buffer: the root call from
`solve` starts from the empty path, and each deeper call extends the path
with a candidate that passed the immediate-undo guard (puzzle.rs lines
239-243) and the cycle guard (lines 246-257).  The bound/depth-cap checks
only restrict this set further, so the buffer of every reachable search
node is a `ReachablePath`. -/
inductive ReachablePath : List Move → Prop where
  | root : ReachablePath []
  | extend (path : List Move) (dir : Move) (hr : ReachablePath path)
      (hundo : ∀ l, path.getLast? = some l → dir ≠ l.opposite)
      (hcyc : is_cycle path dir = false) : ReachablePath (path ++ [dir])

theorem opposite_opposite (m : Move) : m.opposite.opposite = m := by
  cases m <;> rfl

theorem zip_tail_concat {α : Type} (l : List α) (x : α) :
    (l ++ [x]).zip (l ++ [x]).tail
      = l.zip l.tail ++ (match l.getLast? with | some a => [(a, x)] | none => []) := by
  induction l with
  | nil => simp
  | cons a rest ih =>
    cases rest with
    | nil => simp
    | cons b rest2 =>
      simp only [List.cons_append, List.tail_cons, List.zip_cons_cons,
        List.getLast?_cons_cons]
      simp only [List.cons_append, List.tail_cons] at ih
      rw [ih]

theorem reachable_no_undo (path : List Move) (h : ReachablePath path) :
    ∀ pr ∈ path.zip path.tail, pr.2 ≠ pr.1.opposite := by
  induction h with
  | root => intro pr hpr; simp at hpr
  | extend path dir hr hundo hcyc ih =>
    intro pr hpr
    rw [zip_tail_concat] at hpr
    rcases List.mem_append.mp hpr with hpr | hpr
    · exact ih pr hpr
    · rcases hlast : path.getLast? with _ | a
      · rw [hlast] at hpr
        simp at hpr
      · rw [hlast] at hpr
        rw [List.mem_singleton] at hpr
        subst hpr
        exact fun hc => hundo a hlast hc

theorem is_cycle_false_of_no_undo (path : List Move) (dir : Move)
    (h : ∀ pr ∈ path.zip path.tail, pr.2 ≠ pr.1.opposite) :
    is_cycle path dir = false := by
  unfold is_cycle
  rw [List.any_eq_false]
  intro pr hpr
  simp only [Bool.and_eq_true, beq_iff_eq, not_and]
  intro h1 h2
  exact absurd (by rw [h1, h2, opposite_opposite]) (h pr hpr)

theorem last_two_pattern_false_of_no_undo (path : List Move) (dir : Move)
    (h : ∀ pr ∈ path.zip path.tail, pr.2 ≠ pr.1.opposite) :
    last_two_pattern path dir = false := by
  unfold last_two_pattern
  rcases hlast : path.getLast? with _ | nxt
  · rfl
  · rcases hprev : path.dropLast.getLast? with _ | prv
    · rfl
    · by_contra hc
      rw [Bool.not_eq_false, Bool.and_eq_true, beq_iff_eq, beq_iff_eq] at hc
      obtain ⟨hprv, hnxt⟩ := hc
      have hpath : path.dropLast ++ [nxt] = path := List.dropLast_append_getLast? nxt hlast
      have hmem : (prv, nxt) ∈ path.zip path.tail := by
        rw [← hpath, zip_tail_concat, hprev]
        exact List.mem_append.mpr (Or.inr (by simp))
      exact h (prv, nxt) hmem (by rw [hnxt, hprv, opposite_opposite])

/-- C2: At every reachable search node and for every candidate
direction, the cycle guard's decision coincides with the last-two-moves
reading: because the immediate-undo guard keeps any adjacent pair
`(m, opposite m)` out of the path buffer, both the whole-path scan the code
performs and the last-two-entries test of the claim evaluate to `false`, so
they agree (the scan never prunes anything at a reachable node). -/
theorem C2_cycle_guard_iff_last_two (path : List Move) (dir : Move)
    (h : ReachablePath path) :
    is_cycle path dir = last_two_pattern path dir := by
  rw [is_cycle_false_of_no_undo path dir (reachable_no_undo path h),
    last_two_pattern_false_of_no_undo path dir (reachable_no_undo path h)]

/-- C2 witness: the two-step reachable path `[Up, Left]` with candidate
`Right`. -/
theorem C2_witness :
    is_cycle [Move.Up, Move.Left] Move.Right
      = last_two_pattern [Move.Up, Move.Left] Move.Right :=
  C2_cycle_guard_iff_last_two [Move.Up, Move.Left] Move.Right
    (by
      have h1 : ReachablePath ([] ++ [Move.Up]) :=
        ReachablePath.extend [] Move.Up ReachablePath.root
          (fun l hl => by simp at hl) (by decide)
      have h2 : ReachablePath (([] ++ [Move.Up]) ++ [Move.Left]) :=
        ReachablePath.extend ([] ++ [Move.Up]) Move.Left h1
          (fun l hl => by
            simp at hl
            subst hl
            decide)
          (by decide)
      simpa using h2)

/-!
 ## Path-buffer discipline of the search (claims C4, C10, C6)
-/

/-- The 2×2 board one move away from the goal (blank at top-right);
`Move.Up` slides tile 2 up and solves it. -/
def almost_solved2 : Puzzle := ⟨2, [[1, 0], [3, 2]], 0, 1⟩

theorem ida_loop_path
    (recur : Puzzle → Nat → List Move → Option Move → Except Nat (List Move) × List Move)
    (hrec_err : ∀ q g1 path1 last1 t path2,
      recur q g1 path1 last1 = (Except.error t, path2) → path2 = path1)
    (hrec_ok : ∀ q g1 path1 last1 sol path2,
      recur q g1 path1 last1 = (Except.ok sol, path2) → path2 = sol)
    (p : Puzzle) (g : Nat) (last_move : Option Move) :
    ∀ (moves path : List Move) (min : Nat),
    (∀ t pf, Puzzle.ida_loop recur p g last_move moves path min = (Except.error t, pf)
      → pf = path) ∧
    (∀ sol pf, Puzzle.ida_loop recur p g last_move moves path min = (Except.ok sol, pf)
      → pf = sol) := by
  intro moves
  induction moves with
  | nil =>
    intro path min
    constructor
    · intro t pf h
      rw [Puzzle.ida_loop] at h
      exact (Prod.mk.injEq _ _ _ _ ▸ h).2.symm ▸ rfl
    · intro sol pf h
      rw [Puzzle.ida_loop] at h
      exact absurd (congrArg Prod.fst h) (by simp)
  | cons dir rest ih =>
    intro path min
    constructor
    · intro t pf h
      simp only [Puzzle.ida_loop] at h
      split at h
      · exact (ih path min).1 t pf h
      · split at h
        · exact (ih path min).1 t pf h
        · split at h
          · exact (ih path min).1 t pf h
          · split at h
            · have := (ih (path ++ [dir]).dropLast min).1 t pf h
              rwa [List.dropLast_concat] at this
            · split at h
              · exact absurd (congrArg Prod.fst h) (by simp)
              · rename_i t2 path2 heq
                have hp2 : path2 = path ++ [dir] := hrec_err _ (g + 1) _ (some dir) t2 path2 heq
                have := (ih path2.dropLast _).1 t pf h
                rwa [hp2, List.dropLast_concat] at this
    · intro sol pf h
      simp only [Puzzle.ida_loop] at h
      split at h
      · exact (ih path min).2 sol pf h
      · split at h
        · exact (ih path min).2 sol pf h
        · split at h
          · exact (ih path min).2 sol pf h
          · split at h
            · exact (ih (path ++ [dir]).dropLast min).2 sol pf h
            · split at h
              · rename_i sol2 path2 heq
                have hinj := Prod.mk.injEq _ _ _ _ ▸ h
                have hp2 : path2 = sol2 := hrec_ok _ (g + 1) _ (some dir) sol2 path2 heq
                rw [← hinj.2, hp2, Except.ok.inj hinj.1]
              · exact (ih _ _).2 sol pf h

theorem ida_star_path (fuel : Nat) :
    ∀ (p : Puzzle) (g bound : Nat) (path : List Move) (last : Option Move),
    (∀ t pf, Puzzle.ida_star_search fuel p g bound path last = (Except.error t, pf)
      → pf = path) ∧
    (∀ sol pf, Puzzle.ida_star_search fuel p g bound path last = (Except.ok sol, pf)
      → pf = sol) := by
  induction fuel with
  | zero =>
    intro p g bound path last
    constructor
    · intro t pf h
      rw [Puzzle.ida_star_search] at h
      exact ((Prod.mk.injEq _ _ _ _ ▸ h).2).symm ▸ rfl
    · intro sol pf h
      rw [Puzzle.ida_star_search] at h
      exact absurd (congrArg Prod.fst h) (by simp)
  | succ n ih =>
    intro p g bound path last
    constructor
    · intro t pf h
      rw [Puzzle.ida_star_search] at h
      by_cases h1 : g + Puzzle.heuristic p > bound
      · rw [if_pos h1] at h
        exact ((Prod.mk.injEq _ _ _ _ ▸ h).2).symm ▸ rfl
      · rw [if_neg h1] at h
        by_cases h2 : Puzzle.is_solved p = true
        · rw [if_pos h2] at h
          exact absurd (congrArg Prod.fst h) (by simp)
        · rw [if_neg h2] at h
          exact (ida_loop_path _
            (fun q g1 path1 last1 t2 path2 hr => (ih q g1 bound path1 last1).1 t2 path2 hr)
            (fun q g1 path1 last1 sol2 path2 hr => (ih q g1 bound path1 last1).2 sol2 path2 hr)
            p g last _ path usizeMax).1 t pf h
    · intro sol pf h
      rw [Puzzle.ida_star_search] at h
      by_cases h1 : g + Puzzle.heuristic p > bound
      · rw [if_pos h1] at h
        exact absurd (congrArg Prod.fst h) (by simp)
      · rw [if_neg h1] at h
        by_cases h2 : Puzzle.is_solved p = true
        · rw [if_pos h2] at h
          have hinj := Prod.mk.injEq _ _ _ _ ▸ h
          rw [← hinj.2, Except.ok.inj hinj.1]
        · rw [if_neg h2] at h
          exact (ida_loop_path _
            (fun q g1 path1 last1 t2 path2 hr => (ih q g1 bound path1 last1).1 t2 path2 hr)
            (fun q g1 path1 last1 sol2 path2 hr => (ih q g1 bound path1 last1).2 sol2 path2 hr)
            p g last _ path usizeMax).2 sol pf h

/-- C4 counterexample (to the claim as stated): on `almost_solved2` with
bound 1, the `Move.Up` child call succeeds; the parent returns immediately
without popping, so the shared buffer afterwards holds `[Up]`, not its
pre-call contents `[]`. -/
theorem C4_counterexample :
    (Puzzle.ida_star_search 3 almost_solved2 0 1 [] none).1 = Except.ok [Move.Up] ∧
    (Puzzle.ida_star_search 3 almost_solved2 0 1 [] none).2 ≠ [] := by
  constructor
  · rfl
  · intro h
    have h2 : (Puzzle.ida_star_search 3 almost_solved2 0 1 [] none).2 = [Move.Up] := rfl
    rw [h2] at h
    cases h

/-- C4 (amended): The push/pop discipline restores the shared path
buffer exactly when the recursive call FAILS (returns `Err`): the search
then returns the buffer it was given.  After a SUCCESSFUL recursive call
the search returns immediately without popping, and the buffer holds the
returned root-to-goal solution path instead of the pre-call contents. -/
theorem C4_backtrack_restoration (fuel : Nat) (p : Puzzle) (g bound : Nat)
    (path : List Move) (last_move : Option Move) :
    (∀ t pf, Puzzle.ida_star_search fuel p g bound path last_move = (Except.error t, pf)
      → pf = path) ∧
    (∀ sol pf, Puzzle.ida_star_search fuel p g bound path last_move = (Except.ok sol, pf)
      → pf = sol) :=
  ida_star_path fuel p g bound path last_move

/-- C4 witness: a failing pass (bound 0) hands the buffer back unchanged,
and the successful pass (bound 1) hands back exactly the solution. -/
theorem C4_witness :
    ([] : List Move) = [] ∧ ([Move.Up] : List Move) = [Move.Up] :=
  ⟨(C4_backtrack_restoration 2 almost_solved2 0 0 [] none).1 1 [] rfl,
   (C4_backtrack_restoration 3 almost_solved2 0 1 [] none).2 [Move.Up] [Move.Up] rfl⟩

/-!
 ## Finite candidate bounds exceed the current bound (claim C10)
-/

theorem ida_loop_min_gt
    (recur : Puzzle → Nat → List Move → Option Move → Except Nat (List Move) × List Move)
    (bound : Nat)
    (hrec : ∀ q g1 path1 last1 t path2,
      recur q g1 path1 last1 = (Except.error t, path2) → t ≠ usizeMax → bound < t)
    (p : Puzzle) (g : Nat) (last_move : Option Move) :
    ∀ (moves path : List Move) (min : Nat), (min ≠ usizeMax → bound < min) →
    ∀ t pf, Puzzle.ida_loop recur p g last_move moves path min = (Except.error t, pf)
      → t ≠ usizeMax → bound < t := by
  intro moves
  induction moves with
  | nil =>
    intro path min hmin t pf h hfin
    rw [Puzzle.ida_loop] at h
    have ht : t = min := (Except.error.inj (Prod.mk.injEq _ _ _ _ ▸ h).1).symm
    subst ht
    exact hmin hfin
  | cons dir rest ih =>
    intro path min hmin t pf h hfin
    simp only [Puzzle.ida_loop] at h
    split at h
    · exact ih path min hmin t pf h hfin
    · split at h
      · exact ih path min hmin t pf h hfin
      · split at h
        · exact ih path min hmin t pf h hfin
        · split at h
          · exact ih _ min hmin t pf h hfin
          · split at h
            · exact absurd (congrArg Prod.fst h) (by simp)
            · rename_i t2 path2 heq
              refine ih _ _ ?_ t pf h hfin
              intro hne
              by_cases hlt : t2 < min
              · rw [if_pos hlt] at hne ⊢
                exact hrec _ (g + 1) _ (some dir) t2 path2 heq hne
              · rw [if_neg hlt] at hne ⊢
                exact hmin hne

theorem ida_star_min_gt (fuel : Nat) :
    ∀ (p : Puzzle) (g bound : Nat) (path : List Move) (last_move : Option Move)
      (t : Nat) (pf : List Move),
    Puzzle.ida_star_search fuel p g bound path last_move = (Except.error t, pf)
      → t ≠ usizeMax → bound < t := by
  induction fuel with
  | zero =>
    intro p g bound path last_move t pf h hfin
    rw [Puzzle.ida_star_search] at h
    have ht : t = usizeMax := (Except.error.inj (Prod.mk.injEq _ _ _ _ ▸ h).1).symm
    exact absurd ht hfin
  | succ n ih =>
    intro p g bound path last_move t pf h hfin
    rw [Puzzle.ida_star_search] at h
    by_cases h1 : g + Puzzle.heuristic p > bound
    · rw [if_pos h1] at h
      have ht : t = g + Puzzle.heuristic p :=
        (Except.error.inj (Prod.mk.injEq _ _ _ _ ▸ h).1).symm
      omega
    · rw [if_neg h1] at h
      by_cases h2 : Puzzle.is_solved p = true
      · rw [if_pos h2] at h
        exact absurd (congrArg Prod.fst h) (by simp)
      · rw [if_neg h2] at h
        exact ida_loop_min_gt _ bound
          (fun q g1 path1 last1 t2 path2 hr => ih q g1 bound path1 last1 t2 path2 hr)
          p g last_move _ path usizeMax (fun hc => absurd rfl hc) t pf h hfin

/-- C10: The "No progress possible" branch of `solve` is unreachable:
whenever a depth-first search pass returns a finite candidate bound (below
the `usize::MAX` sentinel), that candidate strictly exceeds the bound the
pass was run with, because every finite value propagated up originates from
a node whose `f = g + heuristic` exceeded the bound. -/
theorem C10_finite_candidate_exceeds_bound (fuel : Nat) (p : Puzzle) (g bound : Nat)
    (path : List Move) (last_move : Option Move) (t : Nat) (pf : List Move)
    (h : Puzzle.ida_star_search fuel p g bound path last_move = (Except.error t, pf))
    (hfin : t ≠ usizeMax) : bound < t :=
  ida_star_min_gt fuel p g bound path last_move t pf h hfin

/-- C10 witness: the bound-0 pass on `almost_solved2` returns candidate 1,
which strictly exceeds 0. -/
theorem C10_witness :
    Puzzle.ida_star_search 2 almost_solved2 0 0 [] none = (Except.error 1, [])
      ∧ (0 : Nat) < 1 :=
  ⟨rfl, C10_finite_candidate_exceeds_bound 2 almost_solved2 0 0 [] none 1 [] rfl
    (by decide)⟩

/-!
 ## The NotSolvable failure (claim C6)
-/

theorem solve_loop_ne_not_solvable :
    ∀ (n : Nat) (p : Puzzle) (bound : Nat) (path : List Move),
    Puzzle.solve_loop n p bound path ≠ Except.error "Puzzle is not solvable" := by
  intro n
  induction n with
  | zero =>
    intro p bound path h
    rw [Puzzle.solve_loop] at h
    exact absurd (Except.error.inj h) (by decide)
  | succ n ih =>
    intro p bound path h
    rw [Puzzle.solve_loop] at h
    split at h
    · exact absurd h (by simp)
    · split at h
      · exact absurd (Except.error.inj h) (by decide)
      · split at h
        · exact absurd (Except.error.inj h) (by decide)
        · exact ih p _ _ h

/-- C6: the function `solve` returns the NotSolvable failure (`"Puzzle is not
solvable"`) if and only if the solvability check fails on the initial
state; the definition of `solve` produces this result before the search
loop is ever entered, and when the check passes no branch of the search
loop can produce that failure string. -/
theorem C6_not_solvable_iff (p : Puzzle) :
    Puzzle.solve p = Except.error "Puzzle is not solvable"
      ↔ Puzzle.is_current_state_solvable p = false := by
  unfold Puzzle.solve
  cases hcs : Puzzle.is_current_state_solvable p
  · rw [if_pos (by decide)]
    exact ⟨fun _ => rfl, fun _ => rfl⟩
  · rw [if_neg (by decide)]
    constructor
    · intro h
      exact absurd h (solve_loop_ne_not_solvable _ _ _ _)
    · intro h
      cases h

/-!
 ## The linear-conflict term (claim C3)
-/

/-- The claim's reading of the conflict term: the number of PAIRS of tiles
sharing a row (resp. column) that is both tiles' goal row (resp. goal
column), with the earlier tile strictly larger; each pair contributes 1. -/
def pair_conflicts (p : Puzzle) : Nat :=
  ((List.range p.size).map (fun row =>
    ((List.range p.size).map (fun c2 =>
      ((List.range c2).filter (fun c1 =>
        decide (get_cell p.board row c1 ≠ 0 ∧
          (get_cell p.board row c1 - 1) / p.size = row) &&
        decide (get_cell p.board row c2 ≠ 0 ∧
          (get_cell p.board row c2 - 1) / p.size = row) &&
        decide (get_cell p.board row c2 < get_cell p.board row c1))).length)).sum)).sum
  + ((List.range p.size).map (fun col =>
    ((List.range p.size).map (fun r2 =>
      ((List.range r2).filter (fun r1 =>
        decide (get_cell p.board r1 col ≠ 0 ∧
          (get_cell p.board r1 col - 1) % p.size = col) &&
        decide (get_cell p.board r2 col ≠ 0 ∧
          (get_cell p.board r2 col - 1) % p.size = col) &&
        decide (get_cell p.board r2 col < get_cell p.board r1 col))).length)).sum)).sum

/-- The amended reading: the conflict term counts TILES — a tile in its goal
line contributes 1 when some earlier tile of the same goal line holds a
strictly larger value (this is what the running-max scan computes). -/
def tile_conflicts (p : Puzzle) : Nat :=
  ((List.range p.size).map (fun row =>
    (List.range p.size).countP (fun c2 =>
      decide (get_cell p.board row c2 ≠ 0 ∧
        (get_cell p.board row c2 - 1) / p.size = row) &&
      ((List.range c2).any (fun c1 =>
        decide (get_cell p.board row c1 ≠ 0 ∧
          (get_cell p.board row c1 - 1) / p.size = row) &&
        decide (get_cell p.board row c2 < get_cell p.board row c1)))))).sum
  + ((List.range p.size).map (fun col =>
    (List.range p.size).countP (fun r2 =>
      decide (get_cell p.board r2 col ≠ 0 ∧
        (get_cell p.board r2 col - 1) % p.size = col) &&
      ((List.range r2).any (fun r1 =>
        decide (get_cell p.board r1 col ≠ 0 ∧
          (get_cell p.board r1 col - 1) % p.size = col) &&
        decide (get_cell p.board r2 col < get_cell p.board r1 col)))))).sum

/-- The 3×3 board whose first row is `[3, 2, 1]` (all three tiles in their
goal row, fully reversed). -/
def conflict_board3 : Puzzle := ⟨3, [[3, 2, 1], [4, 5, 6], [7, 8, 0]], 2, 2⟩

/-- C3 counterexample: the code's conflict term yields 2 on
`conflict_board3` while the pair count is 3 — the scan counts tiles below
the running max, not pairs. -/
theorem C3_counterexample :
    Puzzle.linear_conflicts conflict_board3 = 2 ∧ pair_conflicts conflict_board3 = 3 ∧
    Puzzle.linear_conflicts conflict_board3 ≠ pair_conflicts conflict_board3 := by
  refine ⟨by decide, by decide, by decide⟩

/-- One iteration of the running-max scan of `linear_conflicts`, acting on
the value read from the current line cell (`q` is the goal-line test on the
value). -/
@[reducible]
def scan_body (q : Nat → Prop) [DecidablePred q] (st : Nat × Nat) (value : Nat) :
    Nat × Nat :=
  if q value then
    if value > st.1 then (value, st.2) else (st.1, st.2 + 1)
  else st

/-- Maximum of the qualifying values seen so far (0 when there are none). -/
def qual_max (q : Nat → Prop) [DecidablePred q] (seen : List Nat) : Nat :=
  (seen.filter (fun v => decide (q v))).foldl max 0

/-- The tile count the scan computes: a qualifying value contributes 1 when
some earlier qualifying value (the `seen` accumulator) strictly exceeds
it. -/
def conflict_count (q : Nat → Prop) [DecidablePred q] : List Nat → List Nat → Nat
  | [], _ => 0
  | v :: vs, seen =>
    (if q v ∧ ∃ e ∈ seen, q e ∧ v < e then 1 else 0) + conflict_count q vs (seen ++ [v])

theorem foldl_max_init_le : ∀ (l : List Nat) (a : Nat), a ≤ l.foldl max a := by
  intro l
  induction l with
  | nil => intro a; simp
  | cons x xs ih =>
    intro a
    rw [List.foldl_cons]
    exact le_trans (Nat.le_max_left a x) (ih (max a x))

theorem foldl_max_le_of_mem : ∀ (l : List Nat) (a e : Nat), e ∈ l → e ≤ l.foldl max a := by
  intro l
  induction l with
  | nil => intro a e he; simp at he
  | cons x xs ih =>
    intro a e he
    rw [List.foldl_cons]
    rcases List.mem_cons.mp he with rfl | he
    · exact le_trans (Nat.le_max_right a e) (foldl_max_init_le xs (max a e))
    · exact ih (max a x) e he

theorem foldl_max_mem : ∀ (l : List Nat) (a : Nat), l.foldl max a = a ∨ l.foldl max a ∈ l := by
  intro l
  induction l with
  | nil => intro a; left; rfl
  | cons x xs ih =>
    intro a
    rw [List.foldl_cons]
    rcases ih (max a x) with h | h
    · rcases Nat.le_total a x with hm | hm
      · right
        rw [h, Nat.max_eq_right hm]
        exact List.mem_cons_self x xs
      · left
        rw [h, Nat.max_eq_left hm]
    · right
      exact List.mem_cons_of_mem x h

theorem qual_max_le (q : Nat → Prop) [DecidablePred q] (seen : List Nat) (e : Nat)
    (he : e ∈ seen) (hqe : q e) : e ≤ qual_max q seen :=
  foldl_max_le_of_mem _ 0 e (List.mem_filter.mpr ⟨he, by simpa⟩)

theorem qual_max_mem (q : Nat → Prop) [DecidablePred q] (seen : List Nat) :
    qual_max q seen = 0 ∨ (qual_max q seen ∈ seen ∧ q (qual_max q seen)) := by
  rcases foldl_max_mem (seen.filter (fun v => decide (q v))) 0 with h | h
  · left; exact h
  · right
    have hm := List.mem_filter.mp h
    exact ⟨hm.1, by simpa using hm.2⟩

theorem qual_max_append (q : Nat → Prop) [DecidablePred q] (seen : List Nat) (v : Nat) :
    qual_max q (seen ++ [v])
      = if q v then max (qual_max q seen) v else qual_max q seen := by
  unfold qual_max
  rw [List.filter_append, List.filter_singleton]
  by_cases hqv : q v
  · simp only [decide_eq_true hqv, cond_true, List.foldl_append, List.foldl_cons,
      List.foldl_nil, if_pos hqv]
  · simp only [decide_eq_false hqv, cond_false, List.append_nil, if_neg hqv]

theorem scan_foldl_count (q : Nat → Prop) [DecidablePred q] (hq : ∀ v, q v → v ≠ 0) :
    ∀ (vs seen : List Nat) (c0 : Nat),
    ((seen ++ vs).filter (fun v => decide (q v))).Nodup →
    (vs.foldl (scan_body q) (qual_max q seen, c0)).2 = c0 + conflict_count q vs seen := by
  intro vs
  induction vs with
  | nil =>
    intro seen c0 hnd
    simp [conflict_count]
  | cons v rest ih =>
    intro seen c0 hnd
    have hnd' : (((seen ++ [v]) ++ rest).filter (fun v => decide (q v))).Nodup := by
      rw [List.append_assoc]
      exact hnd
    rw [List.foldl_cons, conflict_count]
    by_cases hqv : q v
    · by_cases hgt : v > qual_max q seen
      · have hstep : scan_body q (qual_max q seen, c0) v = (v, c0) := by
          simp [scan_body, hqv, hgt]
        have hm : qual_max q (seen ++ [v]) = v := by
          rw [qual_max_append, if_pos hqv, Nat.max_eq_right (by omega)]
        rw [hstep, show ((v : Nat), c0) = (qual_max q (seen ++ [v]), c0) from by rw [hm],
          ih (seen ++ [v]) c0 hnd']
        have hhead : ¬(q v ∧ ∃ e ∈ seen, q e ∧ v < e) := by
          rintro ⟨-, e, he, hqe, hlt⟩
          exact absurd (qual_max_le q seen e he hqe) (by omega)
        rw [if_neg hhead]
        omega
      · have hstep : scan_body q (qual_max q seen, c0) v = (qual_max q seen, c0 + 1) := by
          simp [scan_body, hqv, hgt]
        have hm : qual_max q (seen ++ [v]) = qual_max q seen := by
          rw [qual_max_append, if_pos hqv, Nat.max_eq_left (by omega)]
        rw [hstep, show (qual_max q seen, c0 + 1) = (qual_max q (seen ++ [v]), c0 + 1)
          from by rw [hm], ih (seen ++ [v]) (c0 + 1) hnd']
        have hhead : q v ∧ ∃ e ∈ seen, q e ∧ v < e := by
          refine ⟨hqv, ?_⟩
          have hv0 := hq v hqv
          have hm0 : 0 < qual_max q seen := by omega
          rcases qual_max_mem q seen with h0 | ⟨hmem, hqm⟩
          · omega
          · refine ⟨qual_max q seen, hmem, hqm, ?_⟩
            have hvne : v ≠ qual_max q seen := by
              intro he
              rw [List.filter_append, List.nodup_append] at hnd
              exact hnd.2.2 (List.mem_filter.mpr ⟨hmem, by simpa using hqm⟩)
                (List.mem_filter.mpr ⟨by rw [← he]; exact List.mem_cons_self v rest,
                  by rw [← he]; simpa using hqv⟩)
            omega
        rw [if_pos hhead]
        omega
    · have hstep : scan_body q (qual_max q seen, c0) v = (qual_max q seen, c0) := by
        simp [scan_body, hqv]
      have hm : qual_max q (seen ++ [v]) = qual_max q seen := by
        rw [qual_max_append, if_neg hqv]
      rw [hstep, show (qual_max q seen, c0) = (qual_max q (seen ++ [v]), c0) from by rw [hm],
        ih (seen ++ [v]) c0 hnd']
      rw [if_neg (fun hc => hqv hc.1)]
      omega

theorem conflict_count_range (q : Nat → Prop) [DecidablePred q] (f : Nat → Nat) :
    ∀ (len start : Nat),
    conflict_count q ((List.range' start len).map f) ((List.range start).map f)
      = (List.range' start len).countP (fun c2 =>
          decide (q (f c2)) && ((List.range c2).any (fun c1 =>
            decide (q (f c1)) && decide (f c2 < f c1)))) := by
  intro len
  induction len with
  | zero => intro start; simp [conflict_count]
  | succ n ih =>
    intro start
    rw [List.range'_succ, List.map_cons, conflict_count, List.countP_cons]
    have hhead : (q (f start) ∧ ∃ e ∈ (List.range start).map f, q e ∧ f start < e)
        ↔ (decide (q (f start)) && ((List.range start).any (fun c1 =>
            decide (q (f c1)) && decide (f start < f c1)))) = true := by
      rw [Bool.and_eq_true, List.any_eq_true]
      constructor
      · rintro ⟨hq1, e, he, hq2, hlt⟩
        obtain ⟨c1, hc1, rfl⟩ := List.mem_map.mp he
        exact ⟨by simpa using hq1, c1, hc1, by simp [hq2, hlt]⟩
      · rintro ⟨hq1, c1, hc1, hb⟩
        rw [Bool.and_eq_true, decide_eq_true_eq, decide_eq_true_eq] at hb
        exact ⟨by simpa using hq1, f c1, List.mem_map_of_mem f hc1, hb.1, hb.2⟩
    have hseen : (List.range start).map f ++ [f start] = (List.range (start + 1)).map f := by
      rw [List.range_succ, List.map_append]
      rfl
    rw [hseen, ih (start + 1)]
    by_cases hc : q (f start) ∧ ∃ e ∈ (List.range start).map f, q e ∧ f start < e
    · rw [if_pos hc, if_pos (hhead.mp hc)]
      omega
    · rw [if_neg hc, if_neg (fun hb => hc (hhead.mpr hb))]
      omega

theorem line_scan_eq_idx (q : Nat → Prop) [DecidablePred q] (f : Nat → Nat)
    (size : Nat) (c0 : Nat)
    (hnd : (((List.range size).map f).filter (fun v => decide (q v))).Nodup)
    (hq : ∀ v, q v → v ≠ 0) :
    ((List.range size).foldl (fun st idx => scan_body q st (f idx)) (0, c0)).2
      = c0 + (List.range size).countP (fun c2 =>
          decide (q (f c2)) && ((List.range c2).any (fun c1 =>
            decide (q (f c1)) && decide (f c2 < f c1)))) := by
  rw [← List.foldl_map f (scan_body q) (List.range size) ((0 : Nat), c0)]
  have h0 : ((0 : Nat), c0) = (qual_max q ([] : List Nat), c0) := rfl
  rw [h0, scan_foldl_count q hq ((List.range size).map f) [] c0 (by simpa using hnd)]
  have hr : (List.range size).map f = (List.range' 0 size).map f := by
    rw [List.range_eq_range']
  rw [hr, show ([] : List Nat) = (List.range 0).map f from rfl,
    conflict_count_range q f size 0, ← List.range_eq_range']

theorem foldl_lines (F : Nat → Nat → Nat) (g : Nat → Nat) :
    ∀ (L : List Nat) (c0 : Nat), (∀ c, ∀ line ∈ L, F c line = c + g line) →
    L.foldl F c0 = c0 + (L.map g).sum := by
  intro L
  induction L with
  | nil => intro c0 h; simp
  | cons x xs ih =>
    intro c0 h
    rw [List.foldl_cons, h c0 x (List.mem_cons_self x xs),
      ih (c0 + g x) (fun c line hl => h c line (List.mem_cons_of_mem x hl)),
      List.map_cons, List.sum_cons]
    omega

theorem get_cell_ne_of_nodup (p : Puzzle) (hwf : WFBoard p)
    (hnd : p.board.flatten.Nodup) (i1 j1 i2 j2 : Nat)
    (h1 : i1 < p.size) (h2 : j1 < p.size) (h3 : i2 < p.size) (h4 : j2 < p.size)
    (hne : ¬(i1 = i2 ∧ j1 = j2)) :
    get_cell p.board i1 j1 ≠ get_cell p.board i2 j2 := by
  obtain ⟨hlen, hrows, _, _⟩ := hwf
  have hflen : p.board.flatten.length = p.size * p.size := by
    rw [flatten_length_grid p.board p.size hrows, hlen]
  have hk1 := cell_index_lt p.size i1 j1 h1 h2
  have hk2 := cell_index_lt p.size i2 j2 h3 h4
  have e1 : get_cell p.board i1 j1 = p.board.flatten[i1 * p.size + j1] := by
    rw [← List.getD_eq_getElem _ 0 (by omega),
      ← get_cell_flatten p.board p.size hrows i1 j1 (by omega) h2]
  have e2 : get_cell p.board i2 j2 = p.board.flatten[i2 * p.size + j2] := by
    rw [← List.getD_eq_getElem _ 0 (by omega),
      ← get_cell_flatten p.board p.size hrows i2 j2 (by omega) h4]
  rw [e1, e2]
  intro hc
  have hidx := (List.Nodup.getElem_inj_iff hnd).mp hc
  exact hne ⟨(cell_index_inj p.size i1 j1 i2 j2 h2 h4 hidx).1,
    (cell_index_inj p.size i1 j1 i2 j2 h2 h4 hidx).2⟩

theorem row_line_nodup (p : Puzzle) (hwf : WFBoard p) (hnd : p.board.flatten.Nodup)
    (row : Nat) (hrow : row < p.size) :
    (((List.range p.size).map (fun col => get_cell p.board row col)).filter
      (fun v => decide (v ≠ 0 ∧ (v - 1) / p.size = row))).Nodup := by
  apply List.Nodup.filter
  apply List.Nodup.map_on
  · intro x hx y hy hfxy
    by_contra hxy
    exact get_cell_ne_of_nodup p hwf hnd row x row y hrow (List.mem_range.mp hx) hrow
      (List.mem_range.mp hy) (fun hc => hxy hc.2) hfxy
  · exact List.nodup_range p.size

theorem col_line_nodup (p : Puzzle) (hwf : WFBoard p) (hnd : p.board.flatten.Nodup)
    (col : Nat) (hcol : col < p.size) :
    (((List.range p.size).map (fun row => get_cell p.board row col)).filter
      (fun v => decide (v ≠ 0 ∧ (v - 1) % p.size = col))).Nodup := by
  apply List.Nodup.filter
  apply List.Nodup.map_on
  · intro x hx y hy hfxy
    by_contra hxy
    exact get_cell_ne_of_nodup p hwf hnd x col y col (List.mem_range.mp hx) hcol
      (List.mem_range.mp hy) hcol (fun hc => hxy hc.1) hfxy
  · exact List.nodup_range p.size

/-- C3 (amended): For every board state (well-formed grid with pairwise
distinct tile values), the linear-conflict term of the heuristic counts
TILES, not pairs: a tile whose current line is its goal line contributes
exactly 1 when some earlier tile of the same goal line holds a strictly
larger value.  (The claim's per-pair reading is refuted by
`C3_counterexample`.) -/
theorem C3_conflicts_count_tiles (p : Puzzle) (hwf : WFBoard p)
    (hnd : p.board.flatten.Nodup) :
    Puzzle.linear_conflicts p = tile_conflicts p := by
  unfold Puzzle.linear_conflicts tile_conflicts
  dsimp only
  rw [foldl_lines
      (fun conflicts row => ((List.range p.size).foldl (fun st col =>
        if get_cell p.board row col ≠ 0 ∧ (get_cell p.board row col - 1) / p.size = row then
          if get_cell p.board row col > st.1 then (get_cell p.board row col, st.2)
          else (st.1, st.2 + 1)
        else st) ((0 : Nat), conflicts)).2)
      (fun row => (List.range p.size).countP (fun c2 =>
        decide (get_cell p.board row c2 ≠ 0 ∧
          (get_cell p.board row c2 - 1) / p.size = row) &&
        ((List.range c2).any (fun c1 =>
          decide (get_cell p.board row c1 ≠ 0 ∧
            (get_cell p.board row c1 - 1) / p.size = row) &&
          decide (get_cell p.board row c2 < get_cell p.board row c1)))))
      (List.range p.size) 0
      (fun c row hr =>
        line_scan_eq_idx (fun v => v ≠ 0 ∧ (v - 1) / p.size = row)
          (fun col => get_cell p.board row col) p.size c
          (row_line_nodup p hwf hnd row (List.mem_range.mp hr))
          (fun v hv => hv.1)),
    foldl_lines
      (fun conflicts col => ((List.range p.size).foldl (fun st row =>
        if get_cell p.board row col ≠ 0 ∧ (get_cell p.board row col - 1) % p.size = col then
          if get_cell p.board row col > st.1 then (get_cell p.board row col, st.2)
          else (st.1, st.2 + 1)
        else st) ((0 : Nat), conflicts)).2)
      (fun col => (List.range p.size).countP (fun r2 =>
        decide (get_cell p.board r2 col ≠ 0 ∧
          (get_cell p.board r2 col - 1) % p.size = col) &&
        ((List.range r2).any (fun r1 =>
          decide (get_cell p.board r1 col ≠ 0 ∧
            (get_cell p.board r1 col - 1) % p.size = col) &&
          decide (get_cell p.board r2 col < get_cell p.board r1 col)))))
      (List.range p.size) _
      (fun c col hc =>
        line_scan_eq_idx (fun v => v ≠ 0 ∧ (v - 1) % p.size = col)
          (fun row => get_cell p.board row col) p.size c
          (col_line_nodup p hwf hnd col (List.mem_range.mp hc))
          (fun v hv => hv.1))]
  omega

/-- C3 witness: the amended tile-count reading agrees with the code on
`conflict_board3` (both are 2). -/
theorem C3_witness :
    Puzzle.linear_conflicts conflict_board3 = tile_conflicts conflict_board3 :=
  C3_conflicts_count_tiles conflict_board3 (by decide) (by decide)

/-!
 ## Replay soundness of returned solutions (partial development for claim C1)

The minimality half of C1 (the returned length equals the true optimal
distance) is not settled here; the following proves the soundness half:
a returned solution replays legally from the initial state and reaches the
goal exactly when fully consumed.
-/

/-- Apply a move sequence in order (each step uses `apply_move`'s resulting
state whether or not the move succeeded, as a caller replaying the solution
would). -/
def replay (p : Puzzle) : List Move → Puzzle
  | [] => p
  | m :: ms => replay (p.apply_move m).2 ms

/-- All moves of the sequence succeed when applied in order. -/
def replay_ok (p : Puzzle) : List Move → Bool
  | [] => true
  | m :: ms => (p.apply_move m).1 && replay_ok (p.apply_move m).2 ms

theorem try_move_some (p : Puzzle) (dir : Move) (np : Puzzle)
    (h : p.try_move dir = some np) :
    (p.apply_move dir).1 = true ∧ np = (p.apply_move dir).2 := by
  unfold Puzzle.try_move at h
  by_cases hb : (p.apply_move dir).1 = true
  · rw [if_pos hb] at h
    exact ⟨hb, (Option.some.inj h).symm⟩
  · rw [if_neg hb] at h
    cases h

theorem ida_loop_sound
    (recur : Puzzle → Nat → List Move → Option Move → Except Nat (List Move) × List Move)
    (hrec_err : ∀ q g1 path1 last1 t path2,
      recur q g1 path1 last1 = (Except.error t, path2) → path2 = path1)
    (hrec : ∀ q g1 path1 last1 sol path2, recur q g1 path1 last1 = (Except.ok sol, path2) →
      ∃ ms, sol = path1 ++ ms ∧ replay_ok q ms = true ∧
        Puzzle.is_solved (replay q ms) = true ∧
        ∀ k, k < ms.length → Puzzle.is_solved (replay q (ms.take k)) = false)
    (p : Puzzle) (g : Nat) (last_move : Option Move)
    (hsolved : Puzzle.is_solved p = false) :
    ∀ (moves path : List Move) (min : Nat) (sol pf : List Move),
    Puzzle.ida_loop recur p g last_move moves path min = (Except.ok sol, pf) →
    ∃ ms, sol = path ++ ms ∧ replay_ok p ms = true ∧
      Puzzle.is_solved (replay p ms) = true ∧
      ∀ k, k < ms.length → Puzzle.is_solved (replay p (ms.take k)) = false := by
  intro moves
  induction moves with
  | nil =>
    intro path min sol pf h
    rw [Puzzle.ida_loop] at h
    exact absurd (congrArg Prod.fst h) (by simp)
  | cons dir rest ih =>
    intro path min sol pf h
    simp only [Puzzle.ida_loop] at h
    split at h
    · exact ih path min sol pf h
    · split at h
      · exact ih path min sol pf h
      · rename_i np htm
        split at h
        · exact ih path min sol pf h
        · split at h
          · rw [List.dropLast_concat] at h
            exact ih path min sol pf h
          · split at h
            · rename_i sol2 path2 heq
              obtain ⟨hmv, hnp⟩ := try_move_some p dir np htm
              obtain ⟨ms2, hsol2, hok2, hsolved2, hpre2⟩ :=
                hrec np (g + 1) (path ++ [dir]) (some dir) sol2 path2 heq
              have hs : sol = sol2 := (Except.ok.inj (Prod.mk.injEq _ _ _ _ ▸ h).1).symm
              refine ⟨dir :: ms2, ?_, ?_, ?_, ?_⟩
              · rw [hs, hsol2, List.append_assoc]
                rfl
              · rw [replay_ok, hmv, ← hnp, hok2]
                rfl
              · rw [replay, ← hnp]
                exact hsolved2
              · intro k hk
                cases k with
                | zero => simpa using hsolved
                | succ k2 =>
                  rw [List.take_succ_cons, replay, ← hnp]
                  exact hpre2 k2 (by simpa using hk)
            · rename_i t2 path2 heq
              have hp2 : path2 = path ++ [dir] := hrec_err np (g + 1) _ (some dir) t2 path2 heq
              rw [hp2, List.dropLast_concat] at h
              exact ih path _ sol pf h

theorem ida_star_sound (fuel : Nat) :
    ∀ (p : Puzzle) (g bound : Nat) (path : List Move) (last_move : Option Move)
      (sol pf : List Move),
    Puzzle.ida_star_search fuel p g bound path last_move = (Except.ok sol, pf) →
    ∃ ms, sol = path ++ ms ∧ replay_ok p ms = true ∧
      Puzzle.is_solved (replay p ms) = true ∧
      ∀ k, k < ms.length → Puzzle.is_solved (replay p (ms.take k)) = false := by
  induction fuel with
  | zero =>
    intro p g bound path last_move sol pf h
    rw [Puzzle.ida_star_search] at h
    exact absurd (congrArg Prod.fst h) (by simp)
  | succ n ih =>
    intro p g bound path last_move sol pf h
    rw [Puzzle.ida_star_search] at h
    by_cases h1 : g + Puzzle.heuristic p > bound
    · rw [if_pos h1] at h
      exact absurd (congrArg Prod.fst h) (by simp)
    · rw [if_neg h1] at h
      by_cases h2 : Puzzle.is_solved p = true
      · rw [if_pos h2] at h
        refine ⟨[], ?_, rfl, ?_, ?_⟩
        · rw [List.append_nil]
          exact (Except.ok.inj (Prod.mk.injEq _ _ _ _ ▸ h).1).symm
        · rw [replay]
          exact h2
        · intro k hk
          simp at hk
      · rw [if_neg h2] at h
        exact ida_loop_sound _
          (fun q g1 path1 last1 t2 path2 hr => (ida_star_path n q g1 bound path1 last1).1 t2 path2 hr)
          (fun q g1 path1 last1 sol2 path2 hr => ih q g1 bound path1 last1 sol2 path2 hr)
          p g last_move (by rw [← Bool.not_eq_true]; exact h2) _ path usizeMax sol pf h

theorem solve_loop_sound :
    ∀ (n : Nat) (p : Puzzle) (bound : Nat) (path : List Move) (sol : List Move),
    path = [] →
    Puzzle.solve_loop n p bound path = Except.ok sol →
    replay_ok p sol = true ∧ Puzzle.is_solved (replay p sol) = true ∧
      ∀ k, k < sol.length → Puzzle.is_solved (replay p (sol.take k)) = false := by
  intro n
  induction n with
  | zero =>
    intro p bound path sol hpath h
    rw [Puzzle.solve_loop] at h
    cases h
  | succ n ih =>
    intro p bound path sol hpath h
    rw [Puzzle.solve_loop] at h
    split at h
    · rename_i sol2 pf2 heq
      have hs : sol2 = sol := Except.ok.inj h
      subst hs hpath
      obtain ⟨ms, hsol, hok, hsv, hpre⟩ :=
        ida_star_sound (bound + 2) p 0 bound [] none sol2 pf2 heq
      rw [List.nil_append] at hsol
      subst hsol
      exact ⟨hok, hsv, hpre⟩
    · rename_i nb path2 heq
      split at h
      · cases h
      · split at h
        · cases h
        · have hp2 : path2 = path :=
            (ida_star_path (bound + 2) p 0 bound path none).1 nb path2 heq
          exact ih p nb path2 sol (by rw [hp2, hpath]) h

/-- Soundness half of C1: when `solve` returns `Ok`, the returned sequence
replays legally from the initial state and reaches the goal exactly when
fully consumed (no proper prefix reaches the goal).  The minimality half of
C1 is not settled by this development. -/
theorem solve_sound (p : Puzzle) (sol : List Move)
    (h : Puzzle.solve p = Except.ok sol) :
    replay_ok p sol = true ∧ Puzzle.is_solved (replay p sol) = true ∧
      ∀ k, k < sol.length → Puzzle.is_solved (replay p (sol.take k)) = false := by
  unfold Puzzle.solve at h
  cases hcs : Puzzle.is_current_state_solvable p
  · rw [if_pos (by rw [hcs]; rfl)] at h
    cases h
  · rw [if_neg (by rw [hcs]; simp)] at h
    exact solve_loop_sound Puzzle.MAX_ITERATIONS p (Puzzle.heuristic p) [] sol rfl h
